import Mathlib

/-!
Verification of the sshc configuration-file parser and serializer.

The development is a shallow embedding of `src/file/file.rs` (parsing) and
`src/file/path.rs` (data model and the `Display` serializer).  Rust strings
are modelled as `List Char`.  The Rust code indexes strings by BYTES in some
places while counting CHARS in others; since byte slicing at an index that is
not a character boundary panics in Rust, the embedding models byte slicing
with an `Option`-returning function (`byteDrop`), and every function that can
panic returns an `Option` whose `none` stands for the panic.
-/

namespace Sshc

/-- Rust strings are modelled as lists of unicode scalar values. -/
abbrev RStr := List Char

/-- Model of Rust `char::is_whitespace`: the Unicode `White_Space` property.
The 25 code points carrying the property are tabulated exactly. -/
def isWS (c : Char) : Bool :=
  ('\u0009' ≤ c && c ≤ '\u000d') || c = ' ' || c = '\u0085' || c = '\u00a0' ||
  c = '\u1680' || ('\u2000' ≤ c && c ≤ '\u200a') || c = '\u2028' ||
  c = '\u2029' || c = '\u202f' || c = '\u205f' || c = '\u3000'

/-- Model of Rust `char::is_alphabetic` (the Unicode `Alphabetic` property),
tabulated exactly on the Latin-1 range `U+0000`–`U+00FF`.  Every concrete
character this development evaluates the classifier on lies in that range,
and the universally quantified theorems involving it restrict the alphabet
to ASCII. -/
def isAlphabetic (c : Char) : Bool :=
  ('A' ≤ c && c ≤ 'Z') || ('a' ≤ c && c ≤ 'z') ||
  c = '\u00aa' || c = '\u00b5' || c = '\u00ba' ||
  ('\u00c0' ≤ c && c ≤ '\u00d6') || ('\u00d8' ≤ c && c ≤ '\u00f6') ||
  ('\u00f8' ≤ c && c ≤ '\u00ff')

/-- A character of the 7-bit ASCII range (one UTF-8 byte). -/
def asciiChar (c : Char) : Bool := decide (c.val ≤ 0x7f)

/-- A string all of whose characters are ASCII. -/
def asciiStr (s : RStr) : Bool := s.all asciiChar

/-- The UTF-8 byte length of a string (Rust `str::len`). -/
def utf8Len (s : RStr) : Nat := (s.map Char.utf8Size).sum

/-- Rust byte slicing `&s[n..]`: `none` models the panic raised when `n` is
out of bounds or not on a character boundary. -/
def byteDrop : RStr → Nat → Option RStr
  | s, 0 => some s
  | [], _ + 1 => none
  | c :: s, n + 1 =>
    if c.utf8Size ≤ n + 1 then byteDrop s (n + 1 - c.utf8Size) else none

/-- Rust `str::trim_start` restricted to its use here: drop the maximal
leading run of whitespace. -/
def rustTrimStart (s : RStr) : RStr := s.dropWhile isWS

/-- Rust `str::trim_end`: drop the maximal trailing run of whitespace. -/
def rustTrimEnd (s : RStr) : RStr := (s.reverse.dropWhile isWS).reverse

/-- Rust `str::trim`. -/
def rustTrim (s : RStr) : RStr := rustTrimEnd (rustTrimStart s)

/-- A trailing line-break character, as in `trim_end_matches(['\n', '\r'])`. -/
def isNLCR (c : Char) : Bool := c = '\n' || c = '\r'

/-- Rust `line.trim_end_matches(['\n', '\r'])`: drop every trailing `'\n'`
or `'\r'`. -/
def trimEndNLCR (s : RStr) : RStr := (s.reverse.dropWhile isNLCR).reverse

/-- Drop one trailing `'\r'` if present (the second half of the per-line
stripping done by Rust `str::lines`). -/
def stripOneCR (s : RStr) : RStr :=
  if s.getLast? = some '\r' then s.dropLast else s

/-- Worker for `rustLines`: split at `'\n'`, stripping one `'\r'` before each
`'\n'`; a final chunk without terminator is yielded unstripped. -/
def rustLinesGo : RStr → RStr → List RStr
  | [], acc => [acc.reverse]
  | c :: rest, acc =>
    if c = '\n' then
      stripOneCR acc.reverse :: (if rest = [] then [] else rustLinesGo rest [])
    else rustLinesGo rest (c :: acc)

/-- Model of Rust `str::lines` (used by `parse_ssh_config`): the empty string
yields no lines, a trailing `'\n'` does not open a final empty line, and each
line has its terminator (`'\n'` or `'\r\n'`) removed. -/
def rustLines (s : RStr) : List RStr :=
  if s = [] then [] else rustLinesGo s []

/-- `ArgumentToken` from `src/file/path.rs`. -/
inductive ArgumentToken
  | Pure (value : RStr)
  | Quoted (value : RStr)
  | Whitespace (value : RStr)
deriving DecidableEq

/-- `Expression` from `src/file/path.rs`. -/
inductive Expression
  | ConfigurationOptions (keyword : RStr) (separator : RStr)
      (arguments_expression : List ArgumentToken)
  | Comment (comment : RStr)
  | Empty
  | Malformed (malformed : RStr)
deriving DecidableEq

/-- `Line` from `src/file/path.rs`. -/
structure Line where
  indent_prefix : RStr
  expression : Expression
  indent_suffix : RStr
deriving DecidableEq

/-- `File` from `src/file/path.rs`; `PathBuf` is modelled by its text. -/
structure File where
  lines : List Line
  path : Option RStr
deriving DecidableEq

/-- `impl Display for ArgumentToken`. -/
def ArgumentToken.display : ArgumentToken → RStr
  | .Pure value => value
  | .Quoted value => '"' :: value ++ ['"']
  | .Whitespace value => value

/-- `impl Display for Expression`. -/
def Expression.display : Expression → RStr
  | .ConfigurationOptions keyword separator arguments_expression =>
      keyword ++ separator ++ (arguments_expression.map ArgumentToken.display).flatten
  | .Comment comment => comment
  | .Empty => []
  | .Malformed malformed => malformed

/-- `impl Display for Line`: prefix, expression, suffix, then `'\n'`. -/
def Line.display (l : Line) : RStr :=
  l.indent_prefix ++ Expression.display l.expression ++ l.indent_suffix ++ ['\n']

/-- `impl Display for File`: the lines concatenated in order. -/
def File.display (f : File) : RStr := (f.lines.map Line.display).flatten

/-- The scanning loop inside the quoted branch of
`parse_arguments_expression`: walk the characters after the opening quote,
tracking the previous character (`prev`, initially `'\x00'`) and the running
`token_size`; stop with `true` at the first `'"'` whose `prev` is not
`'\\'`. -/
def quotedScan : RStr → Char → Nat → Nat × Bool
  | [], _, token_size => (token_size, false)
  | c :: rest, prev, token_size =>
    if prev != '\\' && c == '"' then (token_size, true)
    else quotedScan rest c (token_size + 1)

/-- One iteration of the `parse_arguments_expression` loop body: the token
taken from the front of `remaining` together with the rest of the string, or
`none` on malformation.  In the quoted branch the Rust code slices
`remaining` at byte index `1 + argument.len() + 1`; that index is exactly the
boundary after the opening quote (one byte), the inner text, and the closing
quote (one byte), i.e. dropping `argument.length + 2` characters.  In the
other branches `argument` is a character prefix of `remaining`, so slicing at
its byte length likewise drops `argument.length` characters. -/
def nextToken (remaining : RStr) : Option (ArgumentToken × RStr) :=
  match remaining with
  | [] => none
  | c :: r =>
    if isWS c then
      let argument := (c :: r).takeWhile isWS
      some (.Whitespace argument, (c :: r).drop argument.length)
    else if c = '"' then
      let scanned := quotedScan r '\x00' 0
      if scanned.2 then
        let argument := r.take scanned.1
        some (.Quoted argument, (c :: r).drop (argument.length + 2))
      else none
    else
      let argument := (c :: r).takeWhile (fun x => !isWS x)
      if argument.contains '#' then none
      else some (.Pure argument, (c :: r).drop argument.length)

/-- The `while !remaining.is_empty()` loop of `parse_arguments_expression`,
with an explicit iteration bound for structural recursion: every iteration
consumes at least one character, so `remaining.length` iterations always
suffice and the fuel-exhaustion arm is unreachable at the call site. -/
def tokLoopF : Nat → RStr → List ArgumentToken → Option (List ArgumentToken)
  | _, [], acc => some acc
  | 0, _ :: _, _ => none
  | fuel + 1, c :: r, acc =>
    match nextToken (c :: r) with
    | none => none
    | some (tok, rest) => tokLoopF fuel rest (acc ++ [tok])

/-- `parse_arguments_expression` from `src/file/file.rs`. -/
def parse_arguments_expression (content : RStr) : Option (List ArgumentToken) :=
  match tokLoopF content.length content [] with
  | none => none
  | some arguments_expression =>
    if arguments_expression = [] then none else some arguments_expression

/-- `parse_expression` from `src/file/file.rs`.  Two byte/char mixups of the
source are preserved: `content.chars().skip(keyword.len())` skips the BYTE
length of the keyword as a number of characters (modelled by
`drop (utf8Len keyword)`), and `content[(keyword.len() + separator.len())..]`
slices at a byte index (modelled by `byteDrop`, whose `none` — a panic — makes
the result `none`). -/
def parse_expression (content : RStr) : Option Expression :=
  if content = [] then some .Empty
  else if content.head? = some '#' then some (.Comment content)
  else
    let keyword := content.takeWhile isAlphabetic
    if keyword = [] then some (.Malformed content)
    else
      let separator :=
        (content.drop (utf8Len keyword)).takeWhile (fun c => isWS c || c = '=')
      if separator ≠ [] ∧ (rustTrim separator = [] ∨ rustTrim separator = ['=']) then
        match byteDrop content (utf8Len keyword + utf8Len separator) with
        | none => none
        | some rest =>
          match parse_arguments_expression (rustTrim rest) with
          | some arguments_expression =>
              some (.ConfigurationOptions keyword separator arguments_expression)
          | none => some (.Malformed content)
      else some (.Malformed content)

/-- `parse_line` from `src/file/file.rs`.  `none` models a panic: either the
explicit multiline panic, or the byte slicing
`content[(content.len() - indent_suffix_len)..]`, which subtracts a CHARACTER
count from a BYTE length and slices there (`byteDrop`).  The iterator `it`
has consumed the indent prefix plus one further character after
`take_while`, hence the extra `drop 1`. -/
def parse_line (line : RStr) : Option Line :=
  let content := trimEndNLCR line
  if content.contains '\n' then none
  else
    let indent_prefix := content.takeWhile isWS
    let it := (content.drop indent_prefix.length).drop 1
    let indent_suffix_len := (it.reverse.takeWhile isWS).length
    match byteDrop content (utf8Len content - indent_suffix_len) with
    | none => none
    | some indent_suffix =>
      match parse_expression (rustTrim line) with
      | none => none
      | some e => some ⟨ indent_prefix, e, indent_suffix⟩

/-- `parse_ssh_config` from `src/file/file.rs`. -/
def parse_ssh_config (content : RStr) (path : Option RStr) : Option File :=
  ((rustLines content).mapM parse_line).map (fun lines => ⟨lines, path⟩)

/-! Specification-side definitions, written from the wording of the claims
(never from the code), used to state the claims against the embedding. -/

/-- Spec wording (claim C5): the input "contains a quoted token whose closing
unescaped `'"'` is never found before the end".  The walk skips whitespace
runs, completed quoted tokens and unquoted runs, and reports `true` exactly
when it reaches a quote that is never closed.  The iteration bound is as in
`tokLoopF`. -/
def hasUntermQuoteF : Nat → RStr → Bool
  | _, [] => false
  | 0, _ :: _ => false
  | fuel + 1, c :: r =>
    if isWS c then hasUntermQuoteF fuel ((c :: r).drop ((c :: r).takeWhile isWS).length)
    else if c = '"' then
      let scanned := quotedScan r '\x00' 0
      if scanned.2 then hasUntermQuoteF fuel ((c :: r).drop ((r.take scanned.1).length + 2))
      else true
    else hasUntermQuoteF fuel ((c :: r).drop ((c :: r).takeWhile (fun x => !isWS x)).length)

/-- Claim C5's "unterminated quoted token" condition. -/
def hasUntermQuote (s : RStr) : Bool := hasUntermQuoteF s.length s

/-- Spec wording (claim C5): "some maximal unquoted non-whitespace run
contains a `'#'` character".  Same walk as `hasUntermQuoteF`; an unterminated
quote ends the walk without reporting a hash. -/
def hasHashRunF : Nat → RStr → Bool
  | _, [] => false
  | 0, _ :: _ => false
  | fuel + 1, c :: r =>
    if isWS c then hasHashRunF fuel ((c :: r).drop ((c :: r).takeWhile isWS).length)
    else if c = '"' then
      let scanned := quotedScan r '\x00' 0
      if scanned.2 then hasHashRunF fuel ((c :: r).drop ((r.take scanned.1).length + 2))
      else false
    else
      let argument := (c :: r).takeWhile (fun x => !isWS x)
      argument.contains '#' || hasHashRunF fuel ((c :: r).drop argument.length)

/-- Claim C5's "hash inside an unquoted run" condition. -/
def hasHashRun (s : RStr) : Bool := hasHashRunF s.length s

/-- Spec wording (claim C10): scanning `s` from a previous character `prev`
(initially `'\x00'`), every `'"'` is immediately preceded by a `'\\'`, and
the scan does not end on a `'\\'` — i.e. `s` is a well-formed quoted-token
inner text. -/
def quotedWF : RStr → Char → Bool
  | [], prev => prev != '\\'
  | c :: rest, prev => (c != '"' || prev == '\\') && quotedWF rest c

/-- Spec wording (claim C4): "the maximal alphabetic prefix (the keyword)". -/
def specKeyword (s : RStr) : RStr := s.takeWhile isAlphabetic

/-- Spec wording (claim C4): "the maximal run of whitespace-or-`'='`
characters immediately following the keyword (the separator)". -/
def specSeparator (s : RStr) : RStr :=
  (s.drop (specKeyword s).length).takeWhile (fun c => isWS c || c = '=')

/-- Spec wording (claim C4): the separator "is non-empty and, after removing
whitespace, its residual is either empty or exactly one `'='` character". -/
def specSepValid (sep : RStr) : Bool :=
  !sep.isEmpty && ((rustTrim sep).isEmpty || rustTrim sep == ['='])

/-- Spec wording (claim C4): "the trimmed remainder" handed to the argument
tokenizer, i.e. what follows the keyword and the separator. -/
def specRest (s : RStr) : RStr :=
  rustTrim (s.drop ((specKeyword s).length + (specSeparator s).length))

/-- Spec wording (claim C7): "the maximal leading run of whitespace
characters". -/
def specIndentPre (s : RStr) : RStr := s.takeWhile isWS

/-- Spec wording (claim C7): "the maximal trailing run of whitespace
characters of the remainder" left after removing the leading run. -/
def specIndentSuf (s : RStr) : RStr :=
  ((s.drop (specIndentPre s).length).reverse.takeWhile isWS).reverse

/-- A text "composed of lines each terminated by `'\n'`" (claims C1, C6). -/
def linesText (ls : List RStr) : RStr := (ls.map (fun l => l ++ ['\n'])).flatten

/-- A text "whose lines each end with the terminator `'\r\n'`" (claim C6). -/
def crlfText (ls : List RStr) : RStr := (ls.map (fun l => l ++ ['\r', '\n'])).flatten

/-! Byte-length lemmas. -/

theorem utf8Size_eq_one {c : Char} (h : asciiChar c = true) : c.utf8Size = 1 := by
  have hv : c.val ≤ 0x7f := of_decide_eq_true h
  unfold Char.utf8Size
  have he : (UInt32.ofNatCore 0x7F (by decide)) = 0x7f := by decide
  rw [he, if_pos hv]

theorem utf8Len_nil : utf8Len [] = 0 := rfl

theorem utf8Len_cons (c : Char) (s : RStr) :
    utf8Len (c :: s) = c.utf8Size + utf8Len s := rfl

theorem utf8Len_append (a b : RStr) : utf8Len (a ++ b) = utf8Len a + utf8Len b := by
  unfold utf8Len
  rw [List.map_append, List.sum_append]

theorem utf8Len_ascii {l : RStr} (h : ∀ c ∈ l, asciiChar c = true) :
    utf8Len l = l.length := by
  induction l with
  | nil => rfl
  | cons c s ih =>
    rw [utf8Len_cons, utf8Size_eq_one (h c (List.mem_cons_self c s)),
      ih (fun x hx => h x (List.mem_cons_of_mem c hx)), List.length_cons]
    omega

theorem byteDrop_exact (a b : RStr) : byteDrop (a ++ b) (utf8Len a) = some b := by
  induction a with
  | nil =>
    rw [List.nil_append, utf8Len_nil]
    cases b <;> rfl
  | cons c a ih =>
    have hpos := Char.utf8Size_pos c
    have h1 : utf8Len (c :: a) = (c.utf8Size - 1 + utf8Len a) + 1 := by
      rw [utf8Len_cons]; omega
    rw [List.cons_append, h1]
    simp only [byteDrop]
    rw [if_pos (by omega)]
    have h2 : c.utf8Size - 1 + utf8Len a + 1 - c.utf8Size = utf8Len a := by omega
    rw [h2]
    exact ih

theorem byteDrop_full (l : RStr) : byteDrop l (utf8Len l) = some [] := by
  have := byteDrop_exact l []
  rwa [List.append_nil] at this

/-! Generic `takeWhile` / `dropWhile` utilities. -/

theorem takeWhile_all {p : Char → Bool} {l : RStr} (h : ∀ c ∈ l, p c = true) :
    l.takeWhile p = l := by
  induction l with
  | nil => rfl
  | cons a l ih =>
    rw [List.takeWhile_cons, if_pos (h a (List.mem_cons_self a l))]
    exact congrArg (a :: ·) (ih fun c hc => h c (List.mem_cons_of_mem a hc))

theorem dropWhile_all {p : Char → Bool} {l : RStr} (h : ∀ c ∈ l, p c = true) :
    l.dropWhile p = [] := by
  induction l with
  | nil => rfl
  | cons a l ih =>
    rw [List.dropWhile_cons, if_pos (h a (List.mem_cons_self a l))]
    exact ih fun c hc => h c (List.mem_cons_of_mem a hc)

theorem mem_takeWhile {p : Char → Bool} {l : RStr} {c : Char}
    (h : c ∈ l.takeWhile p) : p c = true := by
  induction l with
  | nil => simp at h
  | cons a l ih =>
    rw [List.takeWhile_cons] at h
    by_cases hp : p a = true
    · rw [if_pos hp] at h
      rcases List.mem_cons.mp h with h | h
      · rwa [h]
      · exact ih h
    · rw [if_neg hp] at h
      simp at h

theorem dropWhile_head {p : Char → Bool} {l : RStr} {c : Char} {r : RStr}
    (h : l.dropWhile p = c :: r) : p c = false := by
  induction l with
  | nil => simp at h
  | cons a l ih =>
    rw [List.dropWhile_cons] at h
    by_cases hp : p a = true
    · rw [if_pos hp] at h
      exact ih h
    · rw [if_neg hp] at h
      cases h
      exact Bool.eq_false_iff.mpr hp

theorem dropWhile_of_head_neg {p : Char → Bool} {l : RStr}
    (h : ∀ c, l.head? = some c → p c = false) : l.dropWhile p = l := by
  cases l with
  | nil => rfl
  | cons a l => rw [List.dropWhile_cons, if_neg (by rw [h a rfl]; simp)]

theorem drop_length_takeWhile (p : Char → Bool) (l : RStr) :
    l.drop (l.takeWhile p).length = l.dropWhile p := by
  induction l with
  | nil => rfl
  | cons a l ih =>
    rw [List.takeWhile_cons, List.dropWhile_cons]
    by_cases hp : p a = true
    · rw [if_pos hp, if_pos hp, List.length_cons, List.drop_succ_cons]
      exact ih
    · rw [if_neg hp, if_neg hp]
      rfl

theorem dropWhile_append_all {p : Char → Bool} {a : RStr}
    (h : ∀ c ∈ a, p c = true) (y : RStr) :
    (a ++ y).dropWhile p = y.dropWhile p := by
  induction a with
  | nil => rfl
  | cons c a ih =>
    rw [List.cons_append, List.dropWhile_cons, if_pos (h c (List.mem_cons_self c a))]
    exact ih fun x hx => h x (List.mem_cons_of_mem c hx)

theorem takeWhile_append_concat_neg {p : Char → Bool} {x : Char}
    (h : p x = false) (y : RStr) :
    (y ++ [x]).takeWhile p = y.takeWhile p := by
  induction y with
  | nil => rw [List.nil_append, List.takeWhile_cons, if_neg (by rw [h]; simp)]; rfl
  | cons a y ih =>
    rw [List.cons_append, List.takeWhile_cons, List.takeWhile_cons]
    by_cases hp : p a = true
    · rw [if_pos hp, if_pos hp, ih]
    · rw [if_neg hp, if_neg hp]

/-! Reverse-side (trailing-run) utilities, shared by `rustTrimEnd` and
`trimEndNLCR`. -/

theorem getLast?_rev (w : RStr) : w.reverse.getLast? = w.head? := by
  rw [List.getLast?_eq_head?_reverse, List.reverse_reverse]

theorem rev_decomp (p : Char → Bool) (y : RStr) :
    (y.reverse.dropWhile p).reverse ++ (y.reverse.takeWhile p).reverse = y := by
  rw [← List.reverse_append, List.takeWhile_append_dropWhile, List.reverse_reverse]

theorem rev_suffix_all (p : Char → Bool) (y : RStr) :
    ∀ c ∈ (y.reverse.takeWhile p).reverse, p c = true := by
  intro c hc
  exact mem_takeWhile (List.mem_reverse.mp hc)

theorem rev_getLast_neg (p : Char → Bool) (y : RStr) :
    ∀ c, ((y.reverse.dropWhile p).reverse).getLast? = some c → p c = false := by
  intro c hc
  rw [getLast?_rev] at hc
  cases hd : y.reverse.dropWhile p with
  | nil => rw [hd] at hc; simp at hc
  | cons a r =>
    rw [hd] at hc
    cases hc
    exact dropWhile_head hd

theorem rev_dropWhile_eq_self {p : Char → Bool} {y : RStr}
    (h : ∀ c, y.getLast? = some c → p c = false) :
    (y.reverse.dropWhile p).reverse = y := by
  rw [dropWhile_of_head_neg, List.reverse_reverse]
  intro c hc
  rw [List.head?_reverse] at hc
  exact h c hc

theorem rev_mem {p : Char → Bool} {y : RStr} {c : Char}
    (h : c ∈ (y.reverse.dropWhile p).reverse) : c ∈ y := by
  have h1 := List.mem_reverse.mp h
  have h2 := (List.dropWhile_sublist p).mem h1
  exact List.mem_reverse.mp h2

/-! Lemmas about `rustTrim` and `trimEndNLCR`. -/

theorem isWS_of_isNLCR {c : Char} (h : isNLCR c = true) : isWS c = true := by
  unfold isNLCR at h
  rcases Bool.or_eq_true_iff.mp h with h | h
  · rw [of_decide_eq_true h]; rfl
  · rw [of_decide_eq_true h]; rfl

theorem trim_decomp (x : RStr) :
    x = x.takeWhile isWS ++ rustTrim x ++ ((x.dropWhile isWS).reverse.takeWhile isWS).reverse := by
  conv_lhs => rw [← List.takeWhile_append_dropWhile isWS x]
  rw [List.append_assoc]
  exact congrArg (x.takeWhile isWS ++ ·) (rev_decomp isWS (x.dropWhile isWS)).symm

theorem rustTrim_getLast_not_ws (x : RStr) :
    ∀ c, (rustTrim x).getLast? = some c → isWS c = false :=
  rev_getLast_neg isWS (x.dropWhile isWS)

theorem rustTrim_head_not_ws (x : RStr) :
    ∀ c, (rustTrim x).head? = some c → isWS c = false := by
  intro c hc
  have hd : (x.dropWhile isWS) = rustTrim x ++ ((x.dropWhile isWS).reverse.takeWhile isWS).reverse :=
    (rev_decomp isWS (x.dropWhile isWS)).symm
  cases hm : rustTrim x with
  | nil => rw [hm] at hc; simp at hc
  | cons a r =>
    rw [hm] at hc
    cases hc
    rw [hm, List.cons_append] at hd
    exact dropWhile_head hd

theorem rustTrim_eq_self {y : RStr}
    (h1 : ∀ c, y.head? = some c → isWS c = false)
    (h2 : ∀ c, y.getLast? = some c → isWS c = false) : rustTrim y = y := by
  show ((y.dropWhile isWS).reverse.dropWhile isWS).reverse = y
  rw [dropWhile_of_head_neg h1]
  exact rev_dropWhile_eq_self h2

theorem rustTrim_idem (x : RStr) : rustTrim (rustTrim x) = rustTrim x :=
  rustTrim_eq_self (rustTrim_head_not_ws x) (rustTrim_getLast_not_ws x)

theorem rustTrim_append_ws {w : RStr} (hw : ∀ c ∈ w, isWS c = true) (a : RStr) :
    rustTrim (a ++ w) = rustTrim a := by
  unfold rustTrim rustTrimStart rustTrimEnd
  rw [List.dropWhile_append]
  by_cases he : (a.dropWhile isWS).isEmpty = true
  · rw [if_pos he, dropWhile_all hw, List.isEmpty_iff.mp he]
  · rw [if_neg he, List.reverse_append,
      dropWhile_append_all (fun c hc => hw c (List.mem_reverse.mp hc))]

theorem trimEndNLCR_getLast (x : RStr) :
    ∀ c, (trimEndNLCR x).getLast? = some c → isNLCR c = false :=
  rev_getLast_neg isNLCR x

theorem trimEndNLCR_idem (x : RStr) : trimEndNLCR (trimEndNLCR x) = trimEndNLCR x :=
  rev_dropWhile_eq_self (trimEndNLCR_getLast x)

theorem mem_getLast? {l : RStr} {c : Char} (h : l.getLast? = some c) : c ∈ l := by
  rw [List.getLast?_eq_head?_reverse] at h
  cases hr : l.reverse with
  | nil => rw [hr] at h; simp at h
  | cons a r =>
    rw [hr] at h
    cases h
    refine List.mem_reverse.mp ?_
    rw [hr]
    exact List.mem_cons_self c r

theorem trimEndNLCR_eq_self {l : RStr} (hn : '\n' ∉ l) (hr : '\r' ∉ l) :
    trimEndNLCR l = l := by
  refine rev_dropWhile_eq_self ?_
  intro c hc
  have hm : c ∈ l := mem_getLast? hc
  unfold isNLCR
  have h1 : ¬ c = '\n' := fun h => hn (h ▸ hm)
  have h2 : ¬ c = '\r' := fun h => hr (h ▸ hm)
  rw [decide_eq_false h1, decide_eq_false h2]
  rfl

theorem rustTrim_trimEndNLCR (l : RStr) : rustTrim (trimEndNLCR l) = rustTrim l := by
  conv_rhs => rw [← rev_decomp isNLCR l]
  rw [rustTrim_append_ws (fun c hc => isWS_of_isNLCR (rev_suffix_all isNLCR l c hc))]
  rfl

theorem trimEndNLCR_mem {l : RStr} {c : Char} (h : c ∈ trimEndNLCR l) : c ∈ l :=
  rev_mem h

/-! Lemmas about the quoted-token scanner. -/

theorem quotedScan_shift (l : RStr) : ∀ (prev : Char) (n : Nat),
    quotedScan l prev n = ((quotedScan l prev 0).1 + n, (quotedScan l prev 0).2) := by
  induction l with
  | nil =>
    intro prev n
    simp only [quotedScan]
    rw [Nat.zero_add]
  | cons c r ih =>
    intro prev n
    simp only [quotedScan]
    by_cases h : (prev != '\\' && c == '"') = true
    · rw [if_pos h, if_pos h, Nat.zero_add]
    · rw [if_neg h, if_neg h, ih c (n + 1), ih c 1]
      have he : (quotedScan r c 0).1 + (n + 1) = (quotedScan r c 0).1 + 1 + n := by omega
      rw [he]

theorem quotedScan_found {l : RStr} : ∀ {prev : Char} {k : Nat},
    quotedScan l prev 0 = (k, true) →
    ∃ inner rest2, l = inner ++ '"' :: rest2 ∧ inner.length = k ∧
      quotedWF inner prev = true := by
  induction l with
  | nil =>
    intro prev k h
    simp only [quotedScan, Prod.mk.injEq] at h
    exact absurd h.2 (by simp)
  | cons c r ih =>
    intro prev k h
    simp only [quotedScan] at h
    by_cases hc : (prev != '\\' && c == '"') = true
    · rw [if_pos hc] at h
      rw [Prod.mk.injEq] at h
      rw [Bool.and_eq_true] at hc
      have hcq : c = '"' := beq_iff_eq.mp hc.2
      refine ⟨[], r, by rw [hcq]; rfl, h.1, ?_⟩
      show (prev != '\\') = true
      exact hc.1
    · rw [if_neg hc, quotedScan_shift r c 1] at h
      rw [Prod.mk.injEq] at h
      have hx : quotedScan r c 0 = ((quotedScan r c 0).1, true) := by
        rw [← h.2]
      obtain ⟨inner, rest2, hl, hlen, hwf⟩ := ih hx
      refine ⟨c :: inner, rest2, by rw [hl]; rfl, ?_, ?_⟩
      · rw [List.length_cons, hlen]
        omega
      · show ((c != '"' || prev == '\\') && quotedWF inner c) = true
        rw [Bool.and_eq_true]
        refine ⟨?_, hwf⟩
        rw [Bool.or_eq_true]
        have hc2 : ¬(prev ≠ '\\' ∧ c = '"') := by
          simpa [Bool.and_eq_true, bne_iff_ne, beq_iff_eq] using hc
        by_cases hcq : c = '"'
        · right
          rw [beq_iff_eq]
          by_contra hne
          exact hc2 ⟨hne, hcq⟩
        · left
          rw [bne_iff_ne]
          exact hcq

theorem quotedScan_of_wf {inner : RStr} : ∀ {prev : Char},
    quotedWF inner prev = true →
    ∀ rest2, quotedScan (inner ++ '"' :: rest2) prev 0 = (inner.length, true) := by
  induction inner with
  | nil =>
    intro prev h rest2
    have hcond : (prev != '\\' && '"' == '"') = true := by
      rw [Bool.and_eq_true]
      exact ⟨h, by simp⟩
    simp only [List.nil_append, quotedScan]
    rw [if_pos hcond]
    rfl
  | cons c inner ih =>
    intro prev h rest2
    simp only [quotedWF, Bool.and_eq_true] at h
    obtain ⟨h1, h2⟩ := h
    have hneg : ¬ ((prev != '\\' && c == '"') = true) := by
      intro hand
      rw [Bool.and_eq_true] at hand
      rw [Bool.or_eq_true] at h1
      rcases h1 with h1 | h1
      · rw [bne_iff_ne] at h1
        exact h1 (beq_iff_eq.mp hand.2)
      · rw [beq_iff_eq] at h1
        rw [bne_iff_ne] at hand
        exact hand.1 h1
    simp only [List.cons_append, quotedScan]
    rw [if_neg hneg, quotedScan_shift _ _ 1]
    simp only [List.append_eq]
    rw [ih h2 rest2, List.length_cons]

theorem quotedWF_last {q : RStr} : ∀ {prev : Char}, quotedWF q prev = true →
    (q = [] → prev ≠ '\\') ∧ (∀ c, q.getLast? = some c → c ≠ '\\') := by
  induction q with
  | nil =>
    intro prev h
    refine ⟨fun _ => ?_, fun c hc => by simp at hc⟩
    exact bne_iff_ne.mp h
  | cons c rest ih =>
    intro prev h
    simp only [quotedWF, Bool.and_eq_true] at h
    refine ⟨fun hq => absurd hq (List.cons_ne_nil c rest), ?_⟩
    intro d hd
    cases rest with
    | nil =>
      simp only [List.getLast?_singleton, Option.some.injEq] at hd
      exact hd ▸ (ih h.2).1 rfl
    | cons e rest2 =>
      rw [List.getLast?_cons_cons] at hd
      exact (ih h.2).2 d hd

theorem quotedWF_split {q : RStr} : ∀ {prev : Char}, quotedWF q prev = true →
    ∀ u v, q = u ++ '"' :: v →
      (u = [] → prev = '\\') ∧ (u ≠ [] → u.getLast? = some '\\') := by
  induction q with
  | nil =>
    intro prev _ u v hq
    exact absurd hq.symm (by simp)
  | cons c rest ih =>
    intro prev h u v hq
    simp only [quotedWF, Bool.and_eq_true] at h
    obtain ⟨h1, h2⟩ := h
    cases u with
    | nil =>
      rw [List.nil_append] at hq
      cases hq
      refine ⟨fun _ => ?_, fun hne => absurd rfl hne⟩
      rw [Bool.or_eq_true] at h1
      rcases h1 with h1 | h1
      · rw [bne_iff_ne] at h1
        exact absurd rfl h1
      · exact beq_iff_eq.mp h1
    | cons a u' =>
      rw [List.cons_append, List.cons_eq_cons] at hq
      obtain ⟨rfl, hrest⟩ := hq
      obtain ⟨ih1, ih2⟩ := ih h2 u' v hrest
      refine ⟨fun h => absurd h (List.cons_ne_nil c u'), fun _ => ?_⟩
      cases u' with
      | nil =>
        rw [List.getLast?_singleton]
        exact congrArg some (ih1 rfl)
      | cons e u'' =>
        rw [List.getLast?_cons_cons]
        exact ih2 (List.cons_ne_nil e u'')

/-! Lemmas about the tokenizer. -/

theorem nextToken_spec {s : RStr} {tok : ArgumentToken} {rest : RStr}
    (h : nextToken s = some (tok, rest)) :
    ArgumentToken.display tok ++ rest = s ∧ rest.length < s.length ∧
    (∀ q, tok = ArgumentToken.Quoted q → quotedWF q '\x00' = true) ∧
    (∀ c, s.head? = some c → isWS c = false →
      (∃ v, tok = ArgumentToken.Pure v) ∨ (∃ v, tok = ArgumentToken.Quoted v)) := by
  cases s with
  | nil => exact absurd h (by simp [nextToken])
  | cons c r =>
    simp only [nextToken] at h
    by_cases hws : isWS c = true
    · rw [if_pos hws] at h
      rw [Option.some.injEq, Prod.mk.injEq] at h
      obtain ⟨htok, hrest⟩ := h
      have htw : (c :: r).takeWhile isWS = c :: r.takeWhile isWS := by
        rw [List.takeWhile_cons, if_pos hws]
      refine ⟨?_, ?_, ?_, ?_⟩
      · rw [← htok, ← hrest]
        show (c :: r).takeWhile isWS ++ _ = c :: r
        rw [drop_length_takeWhile, List.takeWhile_append_dropWhile]
      · rw [← hrest, List.length_drop, htw, List.length_cons, List.length_cons]
        omega
      · intro q hq
        rw [hq] at htok
        cases htok
      · intro d hd hdws
        rw [List.head?_cons, Option.some.injEq] at hd
        rw [← hd] at hdws
        rw [hws] at hdws
        cases hdws
    · rw [if_neg hws] at h
      by_cases hq : c = '"'
      · rw [if_pos hq] at h
        by_cases hs2 : (quotedScan r '\x00' 0).2 = true
        · rw [if_pos hs2] at h
          rw [Option.some.injEq, Prod.mk.injEq] at h
          obtain ⟨htok, hrest⟩ := h
          have hscan : quotedScan r '\x00' 0 = ((quotedScan r '\x00' 0).1, true) := by
            rw [← hs2]
          obtain ⟨inner, rest2, hr, hlen, hwf⟩ := quotedScan_found hscan
          have htake : r.take (quotedScan r '\x00' 0).1 = inner := by
            rw [← hlen, hr, List.take_left]
          rw [htake] at htok hrest
          have hdrop : (c :: r).drop (inner.length + 2) = rest2 := by
            rw [hr]
            show (c :: (inner ++ '"' :: rest2)).drop (inner.length + 1 + 1) = rest2
            rw [List.drop_succ_cons]
            have hsplit : inner ++ '"' :: rest2 = (inner ++ ['"']) ++ rest2 := by
              rw [List.append_assoc]
              rfl
            have hlen1 : inner.length + 1 = (inner ++ ['"']).length := by
              rw [List.length_append]
              rfl
            rw [hsplit, hlen1, List.drop_left]
          refine ⟨?_, ?_, ?_, ?_⟩
          · rw [← htok, ← hrest, hdrop, hq, hr]
            show ('"' :: inner ++ ['"']) ++ rest2 = '"' :: (inner ++ '"' :: rest2)
            simp only [List.cons_append, List.append_assoc, List.singleton_append,
              List.nil_append]
          · rw [← hrest, hdrop, hr, List.length_cons, List.length_append, List.length_cons]
            omega
          · intro q' hq'
            rw [hq'] at htok
            injection htok with hinner
            rw [← hinner]
            exact hwf
          · intro d _ _
            right
            exact ⟨inner, htok.symm⟩
        · rw [if_neg hs2] at h
          cases h
      · rw [if_neg hq] at h
        by_cases hh : ((c :: r).takeWhile (fun x => !isWS x)).contains '#' = true
        · rw [if_pos hh] at h
          cases h
        · rw [if_neg hh] at h
          rw [Option.some.injEq, Prod.mk.injEq] at h
          obtain ⟨htok, hrest⟩ := h
          have hnws : (!isWS c) = true := by
            rw [Bool.not_eq_true] at hws
            rw [hws]
            rfl
          have htw : (c :: r).takeWhile (fun x => !isWS x) =
              c :: r.takeWhile (fun x => !isWS x) := by
            rw [List.takeWhile_cons, if_pos hnws]
          refine ⟨?_, ?_, ?_, ?_⟩
          · rw [← htok, ← hrest]
            show (c :: r).takeWhile (fun x => !isWS x) ++ _ = c :: r
            rw [drop_length_takeWhile, List.takeWhile_append_dropWhile]
          · rw [← hrest, List.length_drop, htw, List.length_cons, List.length_cons]
            omega
          · intro q' hq'
            rw [hq'] at htok
            cases htok
          · intro d _ _
            left
            exact ⟨(c :: r).takeWhile (fun x => !isWS x), htok.symm⟩

theorem tokLoopF_nil (fuel : Nat) (acc : List ArgumentToken) :
    tokLoopF fuel [] acc = some acc := by
  cases fuel <;> rfl

theorem tokLoopF_cons (fuel : Nat) (c : Char) (r : RStr) (acc : List ArgumentToken) :
    tokLoopF (fuel + 1) (c :: r) acc =
      match nextToken (c :: r) with
      | none => none
      | some (tok, rest) => tokLoopF fuel rest (acc ++ [tok]) := rfl

theorem tokLoopF_acc : ∀ (fuel : Nat) {s : RStr} {acc out : List ArgumentToken},
    tokLoopF fuel s acc = some out →
    ∃ ts, out = acc ++ ts ∧ (s = [] → ts = []) ∧ (s ≠ [] → ts ≠ []) := by
  intro fuel
  induction fuel with
  | zero =>
    intro s acc out h
    cases s with
    | nil =>
      rw [tokLoopF_nil] at h
      cases h
      exact ⟨[], by rw [List.append_nil], fun _ => rfl, fun hne => absurd rfl hne⟩
    | cons c r =>
      rw [show tokLoopF 0 (c :: r) acc = none from rfl] at h
      cases h
  | succ fuel ih =>
    intro s acc out h
    cases s with
    | nil =>
      rw [tokLoopF_nil] at h
      cases h
      exact ⟨[], by rw [List.append_nil], fun _ => rfl, fun hne => absurd rfl hne⟩
    | cons c r =>
      rw [tokLoopF_cons] at h
      cases hnt : nextToken (c :: r) with
      | none => rw [hnt] at h; cases h
      | some p =>
        obtain ⟨tok, rest⟩ := p
        rw [hnt] at h
        obtain ⟨ts', hout, _, _⟩ := ih h
        refine ⟨tok :: ts', ?_, fun hc => absurd hc (List.cons_ne_nil c r),
          fun _ => List.cons_ne_nil tok ts'⟩
        rw [hout, List.append_assoc]
        rfl

theorem tokLoopF_display : ∀ (fuel : Nat) {s : RStr} {acc out : List ArgumentToken},
    s.length ≤ fuel → tokLoopF fuel s acc = some out →
    (out.map ArgumentToken.display).flatten = (acc.map ArgumentToken.display).flatten ++ s := by
  intro fuel
  induction fuel with
  | zero =>
    intro s acc out hlen h
    have hs : s = [] := List.length_eq_zero.mp (Nat.le_zero.mp hlen)
    subst hs
    rw [tokLoopF_nil] at h
    cases h
    rw [List.append_nil]
  | succ fuel ih =>
    intro s acc out hlen h
    cases s with
    | nil =>
      rw [tokLoopF_nil] at h
      cases h
      rw [List.append_nil]
    | cons c r =>
      rw [tokLoopF_cons] at h
      cases hnt : nextToken (c :: r) with
      | none => rw [hnt] at h; cases h
      | some p =>
        obtain ⟨tok, rest⟩ := p
        rw [hnt] at h
        obtain ⟨hdisp, hlt, _, _⟩ := nextToken_spec hnt
        have hr : rest.length ≤ fuel := by omega
        rw [ih hr h]
        simp only [List.map_append, List.flatten_append, List.map_cons, List.map_nil,
          List.flatten_cons, List.flatten_nil, List.append_nil, List.append_assoc]
        rw [hdisp]

theorem tokLoopF_quoted : ∀ (fuel : Nat) {s : RStr} {acc out : List ArgumentToken},
    tokLoopF fuel s acc = some out →
    (∀ q, ArgumentToken.Quoted q ∈ acc → quotedWF q '\x00' = true) →
    ∀ q, ArgumentToken.Quoted q ∈ out → quotedWF q '\x00' = true := by
  intro fuel
  induction fuel with
  | zero =>
    intro s acc out h hacc
    cases s with
    | nil =>
      rw [tokLoopF_nil] at h
      cases h
      exact hacc
    | cons c r =>
      rw [show tokLoopF 0 (c :: r) acc = none from rfl] at h
      cases h
  | succ fuel ih =>
    intro s acc out h hacc
    cases s with
    | nil =>
      rw [tokLoopF_nil] at h
      cases h
      exact hacc
    | cons c r =>
      rw [tokLoopF_cons] at h
      cases hnt : nextToken (c :: r) with
      | none => rw [hnt] at h; cases h
      | some p =>
        obtain ⟨tok, rest⟩ := p
        rw [hnt] at h
        obtain ⟨_, _, hqwf, _⟩ := nextToken_spec hnt
        refine ih h ?_
        intro q hq
        rcases List.mem_append.mp hq with hq | hq
        · exact hacc q hq
        · exact hqwf q (List.mem_singleton.mp hq).symm

theorem tokLoopF_first : ∀ (fuel : Nat) {c : Char} {r : RStr} {acc out : List ArgumentToken},
    tokLoopF fuel (c :: r) acc = some out → isWS c = false →
    ∃ tok ts, out = acc ++ tok :: ts ∧
      ((∃ v, tok = ArgumentToken.Pure v) ∨ (∃ v, tok = ArgumentToken.Quoted v)) := by
  intro fuel c r acc out h hws
  cases fuel with
  | zero =>
    rw [show tokLoopF 0 (c :: r) acc = none from rfl] at h
    cases h
  | succ fuel =>
    rw [tokLoopF_cons] at h
    cases hnt : nextToken (c :: r) with
    | none => rw [hnt] at h; cases h
    | some p =>
      obtain ⟨tok, rest⟩ := p
      rw [hnt] at h
      obtain ⟨_, _, _, hval⟩ := nextToken_spec hnt
      obtain ⟨ts', hout, _, _⟩ := tokLoopF_acc fuel h
      refine ⟨tok, ts', ?_, hval c rfl hws⟩
      rw [hout, List.append_assoc]
      rfl

theorem hasUntermQuoteF_succ (fuel : Nat) (c : Char) (r : RStr) :
    hasUntermQuoteF (fuel + 1) (c :: r) =
      (if isWS c then hasUntermQuoteF fuel ((c :: r).drop ((c :: r).takeWhile isWS).length)
       else if c = '"' then
         (if (quotedScan r '\x00' 0).2 then
            hasUntermQuoteF fuel ((c :: r).drop ((r.take (quotedScan r '\x00' 0).1).length + 2))
          else true)
       else hasUntermQuoteF fuel
          ((c :: r).drop ((c :: r).takeWhile (fun x => !isWS x)).length)) := rfl

theorem hasHashRunF_succ (fuel : Nat) (c : Char) (r : RStr) :
    hasHashRunF (fuel + 1) (c :: r) =
      (if isWS c then hasHashRunF fuel ((c :: r).drop ((c :: r).takeWhile isWS).length)
       else if c = '"' then
         (if (quotedScan r '\x00' 0).2 then
            hasHashRunF fuel ((c :: r).drop ((r.take (quotedScan r '\x00' 0).1).length + 2))
          else false)
       else
         (((c :: r).takeWhile (fun x => !isWS x)).contains '#' ||
           hasHashRunF fuel
             ((c :: r).drop ((c :: r).takeWhile (fun x => !isWS x)).length))) := rfl

theorem tokLoopF_none_iff : ∀ (fuel : Nat) {s : RStr}, s.length ≤ fuel →
    ∀ (acc : List ArgumentToken),
    (tokLoopF fuel s acc = none ↔
      (hasUntermQuoteF fuel s = true ∨ hasHashRunF fuel s = true)) := by
  intro fuel
  induction fuel with
  | zero =>
    intro s hlen acc
    have hs : s = [] := List.length_eq_zero.mp (Nat.le_zero.mp hlen)
    subst hs
    rw [tokLoopF_nil]
    simp [hasUntermQuoteF, hasHashRunF]
  | succ fuel ih =>
    intro s hlen acc
    cases s with
    | nil =>
      rw [tokLoopF_nil]
      simp [hasUntermQuoteF, hasHashRunF]
    | cons c r =>
      rw [tokLoopF_cons, hasUntermQuoteF_succ, hasHashRunF_succ]
      by_cases hws : isWS c = true
      · rw [if_pos hws, if_pos hws]
        have hnt : nextToken (c :: r) = some (.Whitespace ((c :: r).takeWhile isWS),
            (c :: r).drop ((c :: r).takeWhile isWS).length) := by
          simp only [nextToken]
          rw [if_pos hws]
        rw [hnt]
        obtain ⟨_, hlt, _, _⟩ := nextToken_spec hnt
        exact ih (by omega) _
      · rw [if_neg hws, if_neg hws]
        by_cases hq : c = '"'
        · rw [if_pos hq, if_pos hq]
          by_cases hs2 : (quotedScan r '\x00' 0).2 = true
          · rw [if_pos hs2, if_pos hs2]
            have hnt : nextToken (c :: r) = some (.Quoted (r.take (quotedScan r '\x00' 0).1),
                (c :: r).drop ((r.take (quotedScan r '\x00' 0).1).length + 2)) := by
              simp only [nextToken]
              rw [if_neg hws, if_pos hq, if_pos hs2]
            rw [hnt]
            obtain ⟨_, hlt, _, _⟩ := nextToken_spec hnt
            exact ih (by omega) _
          · rw [if_neg hs2, if_neg hs2]
            have hnt : nextToken (c :: r) = none := by
              simp only [nextToken]
              rw [if_neg hws, if_pos hq, if_neg hs2]
            rw [hnt]
            simp
        · rw [if_neg hq, if_neg hq]
          by_cases hh : ((c :: r).takeWhile (fun x => !isWS x)).contains '#' = true
          · have hnt : nextToken (c :: r) = none := by
              simp only [nextToken]
              rw [if_neg hws, if_neg hq, if_pos hh]
            rw [hnt, hh, Bool.true_or]
            simp
          · have hnt : nextToken (c :: r) = some
                (.Pure ((c :: r).takeWhile (fun x => !isWS x)),
                  (c :: r).drop ((c :: r).takeWhile (fun x => !isWS x)).length) := by
              simp only [nextToken]
              rw [if_neg hws, if_neg hq, if_neg hh]
            have hh' : ((c :: r).takeWhile (fun x => !isWS x)).contains '#' = false := by
              cases hx : ((c :: r).takeWhile (fun x => !isWS x)).contains '#' with
              | false => rfl
              | true => exact absurd hx hh
            rw [hnt, hh', Bool.false_or]
            obtain ⟨_, hlt, _, _⟩ := nextToken_spec hnt
            exact ih (by omega) _

theorem parse_args_none_iff (s : RStr) :
    parse_arguments_expression s = none ↔
      (s = [] ∨ hasUntermQuote s = true ∨ hasHashRun s = true) := by
  unfold parse_arguments_expression hasUntermQuote hasHashRun
  have hiff := tokLoopF_none_iff s.length (le_refl s.length) ([] : List ArgumentToken)
  cases htl : tokLoopF s.length s [] with
  | none =>
    rw [htl] at hiff
    constructor
    · intro _
      right
      exact hiff.mp rfl
    · intro _
      rfl
  | some out =>
    rw [htl] at hiff
    have hnuq : ¬(hasUntermQuoteF s.length s = true ∨ hasHashRunF s.length s = true) :=
      fun hcon => by cases hiff.mpr hcon
    obtain ⟨ts, hout, hnil, hnenil⟩ := tokLoopF_acc s.length htl
    rw [List.nil_append] at hout
    subst hout
    change (if out = [] then none else some out) = none ↔ _
    by_cases hse : s = []
    · rw [if_pos (hnil hse)]
      simp [hse]
    · rw [if_neg (hnenil hse)]
      constructor
      · intro hcon
        cases hcon
      · intro hr
        rcases hr with hr | hr
        · exact absurd hr hse
        · exact absurd hr hnuq

theorem parse_args_some {s : RStr} {args : List ArgumentToken}
    (h : parse_arguments_expression s = some args) :
    tokLoopF s.length s [] = some args ∧ args ≠ [] := by
  unfold parse_arguments_expression at h
  cases htl : tokLoopF s.length s [] with
  | none => rw [htl] at h; cases h
  | some out =>
    rw [htl] at h
    change (if out = [] then none else some out) = some args at h
    by_cases he : out = []
    · rw [if_pos he] at h
      cases h
    · rw [if_neg he] at h
      injection h with h2
      subst h2
      exact ⟨rfl, he⟩

theorem parse_args_display {s : RStr} {args : List ArgumentToken}
    (h : parse_arguments_expression s = some args) :
    (args.map ArgumentToken.display).flatten = s := by
  obtain ⟨htl, _⟩ := parse_args_some h
  have hd := tokLoopF_display s.length (le_refl _) htl
  simpa using hd

theorem parse_args_first {s : RStr} {args : List ArgumentToken}
    (h : parse_arguments_expression s = some args)
    (hh : ∀ c, s.head? = some c → isWS c = false) :
    ∃ tok ts, args = tok :: ts ∧
      ((∃ v, tok = ArgumentToken.Pure v) ∨ (∃ v, tok = ArgumentToken.Quoted v)) := by
  obtain ⟨htl, hne⟩ := parse_args_some h
  cases s with
  | nil =>
    rw [tokLoopF_nil] at htl
    cases htl
    exact absurd rfl hne
  | cons c r =>
    obtain ⟨tok, ts, hout, hv⟩ := tokLoopF_first _ htl (hh c rfl)
    rw [List.nil_append] at hout
    exact ⟨tok, ts, hout, hv⟩

theorem parse_args_quoted {s q : RStr} {args : List ArgumentToken}
    (h : parse_arguments_expression s = some args)
    (hq : ArgumentToken.Quoted q ∈ args) : quotedWF q '\x00' = true := by
  obtain ⟨htl, _⟩ := parse_args_some h
  exact tokLoopF_quoted _ htl (fun q' hq' => by simp at hq') q hq

theorem parse_args_retokenize {q : RStr} (hwf : quotedWF q '\x00' = true) :
    parse_arguments_expression ('"' :: q ++ ['"']) = some [ArgumentToken.Quoted q] := by
  have hscan : quotedScan (q ++ ['"']) '\x00' 0 = (q.length, true) := quotedScan_of_wf hwf []
  have htake : (q ++ ['"']).take q.length = q := List.take_left q ['"']
  have hdrop : ('"' :: (q ++ ['"'])).drop (q.length + 2) = [] := by
    change (q ++ ['"']).drop (q.length + 1) = []
    rw [show q.length + 1 = (q ++ ['"']).length by rw [List.length_append]; rfl,
      List.drop_length]
  have hnt : nextToken ('"' :: (q ++ ['"'])) = some (.Quoted q, []) := by
    have h1 : nextToken ('"' :: (q ++ ['"'])) =
        (if (quotedScan (q ++ ['"']) '\x00' 0).2 then
          some (ArgumentToken.Quoted ((q ++ ['"']).take (quotedScan (q ++ ['"']) '\x00' 0).1),
            ('"' :: (q ++ ['"'])).drop
              (((q ++ ['"']).take (quotedScan (q ++ ['"']) '\x00' 0).1).length + 2))
         else none) := rfl
    rw [h1, hscan]
    change (if true = true then
        some (ArgumentToken.Quoted ((q ++ ['"']).take q.length),
          ('"' :: (q ++ ['"'])).drop (((q ++ ['"']).take q.length).length + 2))
      else none) = _
    rw [if_pos rfl, htake]
    rw [hdrop]
  have hlen : ('"' :: q ++ ['"']).length = q.length + 1 + 1 := by
    rw [List.cons_append, List.length_cons, List.length_append]
    rfl
  unfold parse_arguments_expression
  rw [hlen, List.cons_append, tokLoopF_cons, hnt]
  simp only [tokLoopF_nil, List.nil_append]
  rw [if_neg (List.cons_ne_nil _ _)]

/-! Unfolding lemmas for `parse_expression`, one per classification branch. -/

theorem parse_expression_empty : parse_expression [] = some .Empty := rfl

theorem parse_expression_comment {m : RStr} (hm : m ≠ []) (hh : m.head? = some '#') :
    parse_expression m = some (.Comment m) := by
  unfold parse_expression
  rw [if_neg hm, if_pos hh]

theorem parse_expression_nokw {m : RStr} (hm : m ≠ []) (hh : ¬ m.head? = some '#')
    (hkw : m.takeWhile isAlphabetic = []) :
    parse_expression m = some (.Malformed m) := by
  simp only [parse_expression]
  rw [if_neg hm, if_neg hh, hkw, if_pos rfl]

theorem parse_expression_badsep {m kw sep : RStr}
    (hm : m ≠ []) (hh : ¬ m.head? = some '#')
    (hkw : m.takeWhile isAlphabetic = kw) (hkwne : kw ≠ [])
    (hsep : (m.drop (utf8Len kw)).takeWhile (fun c => isWS c || c = '=') = sep)
    (hnv : ¬ (sep ≠ [] ∧ (rustTrim sep = [] ∨ rustTrim sep = ['=']))) :
    parse_expression m = some (.Malformed m) := by
  subst hkw
  subst hsep
  simp only [parse_expression]
  rw [if_neg hm, if_neg hh, if_neg hkwne, if_neg hnv]

theorem parse_expression_valid {m kw sep r1 : RStr}
    (hm : m ≠ []) (hh : ¬ m.head? = some '#')
    (hkw : m.takeWhile isAlphabetic = kw) (hkwne : kw ≠ [])
    (hsep : (m.drop (utf8Len kw)).takeWhile (fun c => isWS c || c = '=') = sep)
    (hvalid : sep ≠ [] ∧ (rustTrim sep = [] ∨ rustTrim sep = ['=']))
    (hbd : byteDrop m (utf8Len kw + utf8Len sep) = some r1) :
    parse_expression m =
      (match parse_arguments_expression (rustTrim r1) with
       | some args => some (.ConfigurationOptions kw sep args)
       | none => some (.Malformed m)) := by
  subst hkw
  subst hsep
  simp only [parse_expression]
  rw [if_neg hm, if_neg hh, if_neg hkwne, if_pos hvalid, hbd]

theorem parse_expression_display {m : RStr} (hA : ∀ c ∈ m, asciiChar c = true)
    (htr : rustTrim m = m) :
    ∃ e, parse_expression m = some e ∧ Expression.display e = m := by
  by_cases hm : m = []
  · subst hm
    exact ⟨.Empty, parse_expression_empty, rfl⟩
  · by_cases hh : m.head? = some '#'
    · exact ⟨.Comment m, parse_expression_comment hm hh, rfl⟩
    · by_cases hkw : m.takeWhile isAlphabetic = []
      · exact ⟨.Malformed m, parse_expression_nokw hm hh hkw, rfl⟩
      · have hkwA : ∀ c ∈ m.takeWhile isAlphabetic, asciiChar c = true := fun c hc =>
          hA c ((List.takeWhile_sublist _).mem hc)
        have hsep : (m.drop (utf8Len (m.takeWhile isAlphabetic))).takeWhile
            (fun c => isWS c || c = '=') =
            (m.dropWhile isAlphabetic).takeWhile (fun c => isWS c || c = '=') := by
          rw [utf8Len_ascii hkwA, drop_length_takeWhile]
        by_cases hv : (m.dropWhile isAlphabetic).takeWhile (fun c => isWS c || c = '=') ≠ [] ∧
            (rustTrim ((m.dropWhile isAlphabetic).takeWhile (fun c => isWS c || c = '=')) = [] ∨
             rustTrim ((m.dropWhile isAlphabetic).takeWhile (fun c => isWS c || c = '=')) = ['='])
        · have hm2 : m = (m.takeWhile isAlphabetic ++
              (m.dropWhile isAlphabetic).takeWhile (fun c => isWS c || c = '=')) ++
              (m.dropWhile isAlphabetic).dropWhile (fun c => isWS c || c = '=') := by
            rw [List.append_assoc, List.takeWhile_append_dropWhile,
              List.takeWhile_append_dropWhile]
          have hbd : byteDrop m (utf8Len (m.takeWhile isAlphabetic) +
              utf8Len ((m.dropWhile isAlphabetic).takeWhile (fun c => isWS c || c = '='))) =
              some ((m.dropWhile isAlphabetic).dropWhile (fun c => isWS c || c = '=')) := by
            have hb := byteDrop_exact (m.takeWhile isAlphabetic ++
              (m.dropWhile isAlphabetic).takeWhile (fun c => isWS c || c = '='))
              ((m.dropWhile isAlphabetic).dropWhile (fun c => isWS c || c = '='))
            rw [← hm2, utf8Len_append] at hb
            exact hb
          have hr1trim : rustTrim ((m.dropWhile isAlphabetic).dropWhile
              (fun c => isWS c || c = '=')) =
              (m.dropWhile isAlphabetic).dropWhile (fun c => isWS c || c = '=') := by
            refine rustTrim_eq_self ?_ ?_
            · intro c hc
              cases hr1e : (m.dropWhile isAlphabetic).dropWhile (fun c => isWS c || c = '=') with
              | nil => rw [hr1e] at hc; simp at hc
              | cons a t =>
                rw [hr1e] at hc
                rw [List.head?_cons, Option.some.injEq] at hc
                subst hc
                have hp := dropWhile_head hr1e
                exact (Bool.or_eq_false_iff.mp hp).1
            · intro c hc
              have hml : m.getLast? = some c := by
                conv_lhs => rw [hm2]
                rw [List.getLast?_append, hc]
                rfl
              have hws := rustTrim_getLast_not_ws m
              rw [htr] at hws
              exact hws c hml
          cases hargs : parse_arguments_expression ((m.dropWhile isAlphabetic).dropWhile
              (fun c => isWS c || c = '=')) with
          | some args =>
            refine ⟨.ConfigurationOptions (m.takeWhile isAlphabetic)
              ((m.dropWhile isAlphabetic).takeWhile (fun c => isWS c || c = '=')) args,
              ?_, ?_⟩
            · rw [parse_expression_valid hm hh rfl hkw hsep hv hbd, hr1trim, hargs]
            · show m.takeWhile isAlphabetic ++
                (m.dropWhile isAlphabetic).takeWhile (fun c => isWS c || c = '=') ++
                (args.map ArgumentToken.display).flatten = m
              rw [parse_args_display hargs]
              exact hm2.symm
          | none =>
            refine ⟨.Malformed m, ?_, rfl⟩
            rw [parse_expression_valid hm hh rfl hkw hsep hv hbd, hr1trim, hargs]
        · exact ⟨.Malformed m, parse_expression_badsep hm hh rfl hkw hsep hv, rfl⟩

/-! Lemmas about `parse_line`. -/

theorem rustTrim_mem {x : RStr} {c : Char} (h : c ∈ rustTrim x) : c ∈ x :=
  (List.dropWhile_sublist isWS).mem (rev_mem h)

theorem parse_line_strip (l : RStr) : parse_line (trimEndNLCR l) = parse_line l := by
  simp only [parse_line]
  rw [trimEndNLCR_idem, rustTrim_trimEndNLCR]

theorem suffix_len_eq (l : RStr) :
    (((l.drop ((l.takeWhile isWS).length)).drop 1).reverse.takeWhile isWS).length =
    (((l.dropWhile isWS).reverse.takeWhile isWS).reverse).length := by
  rw [drop_length_takeWhile]
  cases hr0 : l.dropWhile isWS with
  | nil => rfl
  | cons c0 t =>
    have hc0 : isWS c0 = false := dropWhile_head hr0
    rw [List.length_reverse, List.reverse_cons, takeWhile_append_concat_neg hc0]
    rfl

theorem parse_line_eq {l : RStr} (hA : ∀ c ∈ l, asciiChar c = true) (hn : '\n' ∉ l)
    (hs : trimEndNLCR l = l) :
    ∃ e, parse_expression (rustTrim l) = some e ∧ Expression.display e = rustTrim l ∧
      parse_line l = some ⟨l.takeWhile isWS, e,
        ((l.dropWhile isWS).reverse.takeWhile isWS).reverse⟩ := by
  have hAtrim : ∀ c ∈ rustTrim l, asciiChar c = true := fun c hc => hA c (rustTrim_mem hc)
  obtain ⟨e, he, hde⟩ := parse_expression_display hAtrim (rustTrim_idem l)
  refine ⟨e, he, hde, ?_⟩
  have hdecomp : l = (l.takeWhile isWS ++ rustTrim l) ++
      ((l.dropWhile isWS).reverse.takeWhile isWS).reverse := by
    conv_lhs => rw [trim_decomp l]
  have hAmid : ∀ c ∈ l.takeWhile isWS ++ rustTrim l, asciiChar c = true := by
    intro c hc
    refine hA c ?_
    rw [hdecomp]
    exact List.mem_append_left _ hc
  have h3 : l.length = (l.takeWhile isWS ++ rustTrim l).length +
      (((l.dropWhile isWS).reverse.takeWhile isWS).reverse).length := by
    conv_lhs => rw [hdecomp]
    rw [List.length_append]
  have hsub : utf8Len l -
      (((l.dropWhile isWS).reverse.takeWhile isWS).reverse).length =
      utf8Len (l.takeWhile isWS ++ rustTrim l) := by
    rw [utf8Len_ascii hA, utf8Len_ascii hAmid]
    omega
  have hbd : byteDrop l (utf8Len l -
      (((l.dropWhile isWS).reverse.takeWhile isWS).reverse).length) =
      some (((l.dropWhile isWS).reverse.takeWhile isWS).reverse) := by
    rw [hsub]
    have hb := byteDrop_exact (l.takeWhile isWS ++ rustTrim l)
      (((l.dropWhile isWS).reverse.takeWhile isWS).reverse)
    rw [← hdecomp] at hb
    exact hb
  have hcont : l.contains '\n' = false := by
    cases hcc : l.elem '\n' with
    | false => exact hcc
    | true => exact absurd (List.elem_iff.mp hcc) hn
  simp only [parse_line]
  rw [hs]
  rw [if_neg (by intro hcc2; rw [hcont] at hcc2; cases hcc2)]
  rw [suffix_len_eq, hbd, he]

theorem parse_line_display {l : RStr} (hA : ∀ c ∈ l, asciiChar c = true) (hn : '\n' ∉ l) :
    ∃ L, parse_line l = some L ∧ Line.display L = trimEndNLCR l ++ ['\n'] := by
  have hAc : ∀ c ∈ trimEndNLCR l, asciiChar c = true := fun c hc => hA c (trimEndNLCR_mem hc)
  have hnc : '\n' ∉ trimEndNLCR l := fun hc => hn (trimEndNLCR_mem hc)
  obtain ⟨e, _, hde, hl⟩ := parse_line_eq hAc hnc (trimEndNLCR_idem l)
  rw [← parse_line_strip l]
  refine ⟨⟨(trimEndNLCR l).takeWhile isWS, e,
    (((trimEndNLCR l).dropWhile isWS).reverse.takeWhile isWS).reverse⟩, hl, ?_⟩
  show (trimEndNLCR l).takeWhile isWS ++ Expression.display e ++ _ ++ ['\n'] =
    trimEndNLCR l ++ ['\n']
  rw [hde]
  exact congrArg (· ++ ['\n']) (trim_decomp (trimEndNLCR l)).symm

/-! Lemmas about `stripOneCR` and `rustLines`. -/

theorem stripOneCR_mem {l : RStr} {c : Char} (h : c ∈ stripOneCR l) : c ∈ l := by
  unfold stripOneCR at h
  by_cases hl : l.getLast? = some '\r'
  · rw [if_pos hl] at h
    exact (List.dropLast_sublist l).mem h
  · rwa [if_neg hl] at h

theorem stripOneCR_of_no_cr {l : RStr} (hr : '\r' ∉ l) : stripOneCR l = l := by
  unfold stripOneCR
  rw [if_neg]
  intro h
  exact hr (mem_getLast? h)

theorem stripOneCR_concat_cr (l : RStr) : stripOneCR (l ++ ['\r']) = l := by
  unfold stripOneCR
  rw [if_pos (List.getLast?_concat l), List.dropLast_concat]

theorem stripOneCR_of_getLast_ne {l : RStr}
    (h : ∀ c, l.getLast? = some c → c ≠ '\r') : stripOneCR l = l := by
  unfold stripOneCR
  rw [if_neg]
  intro hc
  exact h '\r' hc rfl

theorem rustLinesGo_nil (acc : RStr) : rustLinesGo [] acc = [acc.reverse] := rfl

theorem rustLinesGo_nl (rest acc : RStr) :
    rustLinesGo ('\n' :: rest) acc =
      stripOneCR acc.reverse :: (if rest = [] then [] else rustLinesGo rest []) := by
  simp only [rustLinesGo]
  rw [if_pos trivial]

theorem rustLinesGo_other {c : Char} (hc : ¬ c = '\n') (rest acc : RStr) :
    rustLinesGo (c :: rest) acc = rustLinesGo rest (c :: acc) := by
  simp only [rustLinesGo]
  rw [if_neg hc]

theorem rustLinesGo_append : ∀ (l : RStr), '\n' ∉ l → ∀ (acc t : RStr),
    rustLinesGo (l ++ '\n' :: t) acc =
      stripOneCR (acc.reverse ++ l) :: (if t = [] then [] else rustLinesGo t []) := by
  intro l
  induction l with
  | nil =>
    intro _ acc t
    rw [List.nil_append, rustLinesGo_nl, List.append_nil]
  | cons c l ih =>
    intro hl acc t
    have hc : ¬ c = '\n' := fun h => hl (h ▸ List.mem_cons_self c l)
    rw [List.cons_append, rustLinesGo_other hc,
      ih (fun hm => hl (List.mem_cons_of_mem c hm)) (c :: acc) t,
      List.reverse_cons, List.append_assoc, List.singleton_append]

theorem linesText_cons (l : RStr) (ls : List RStr) :
    linesText (l :: ls) = l ++ '\n' :: linesText ls := by
  show ((l :: ls).map (fun l => l ++ ['\n'])).flatten = _
  rw [List.map_cons, List.flatten_cons, List.append_assoc, List.singleton_append]
  rfl

theorem linesText_ne_nil (l : RStr) (ls : List RStr) : linesText (l :: ls) ≠ [] := by
  rw [linesText_cons]
  intro h
  have hlen := congrArg List.length h
  rw [List.length_append, List.length_cons] at hlen
  simp at hlen

theorem rustLines_linesText : ∀ (ls : List RStr), (∀ l ∈ ls, '\n' ∉ l) →
    rustLines (linesText ls) = ls.map stripOneCR := by
  intro ls
  induction ls with
  | nil => intro _; rfl
  | cons l ls ih =>
    intro h
    rw [linesText_cons]
    unfold rustLines
    rw [if_neg (by
      intro hc
      have := linesText_ne_nil l ls
      rw [linesText_cons] at this
      exact this hc)]
    rw [rustLinesGo_append l (h l (List.mem_cons_self l ls)) [] (linesText ls),
      List.reverse_nil, List.nil_append, List.map_cons]
    congr 1
    cases ls with
    | nil => rfl
    | cons l2 ls2 =>
      rw [if_neg (linesText_ne_nil l2 ls2)]
      have hrec := ih (fun x hx => h x (List.mem_cons_of_mem l hx))
      unfold rustLines at hrec
      rw [if_neg (linesText_ne_nil l2 ls2)] at hrec
      exact hrec

theorem rustLinesGo_no_nl : ∀ (s acc : RStr), '\n' ∉ acc →
    ∀ l ∈ rustLinesGo s acc, '\n' ∉ l := by
  intro s
  induction s with
  | nil =>
    intro acc hacc l hl
    rw [rustLinesGo_nil, List.mem_singleton] at hl
    subst hl
    intro hc
    exact hacc (List.mem_reverse.mp hc)
  | cons c rest ih =>
    intro acc hacc l hl
    by_cases hc : c = '\n'
    · subst hc
      rw [rustLinesGo_nl] at hl
      rcases List.mem_cons.mp hl with hl | hl
      · subst hl
        intro hcc
        exact hacc (List.mem_reverse.mp (stripOneCR_mem hcc))
      · by_cases hrest : rest = []
        · rw [if_pos hrest] at hl
          simp at hl
        · rw [if_neg hrest] at hl
          exact ih [] (by simp) l hl
    · rw [rustLinesGo_other hc] at hl
      refine ih (c :: acc) ?_ l hl
      intro hcc
      rcases List.mem_cons.mp hcc with h | h
      · exact hc h.symm
      · exact hacc h

theorem rustLinesGo_chars (P : Char → Prop) : ∀ (s acc : RStr), (∀ c ∈ s, P c) →
    (∀ c ∈ acc, P c) → ∀ l ∈ rustLinesGo s acc, ∀ c ∈ l, P c := by
  intro s
  induction s with
  | nil =>
    intro acc _ hacc l hl c hc
    rw [rustLinesGo_nil, List.mem_singleton] at hl
    subst hl
    exact hacc c (List.mem_reverse.mp hc)
  | cons c0 rest ih =>
    intro acc hs hacc l hl c hc
    by_cases hc0 : c0 = '\n'
    · subst hc0
      rw [rustLinesGo_nl] at hl
      rcases List.mem_cons.mp hl with hl | hl
      · subst hl
        exact hacc c (List.mem_reverse.mp (stripOneCR_mem hc))
      · by_cases hrest : rest = []
        · rw [if_pos hrest] at hl
          simp at hl
        · rw [if_neg hrest] at hl
          exact ih [] (fun x hx => hs x (List.mem_cons_of_mem _ hx)) (by simp) l hl c hc
    · rw [rustLinesGo_other hc0] at hl
      refine ih (c0 :: acc) (fun x hx => hs x (List.mem_cons_of_mem _ hx)) ?_ l hl c hc
      intro x hx
      rcases List.mem_cons.mp hx with h | h
      · exact h ▸ hs c0 (List.mem_cons_self c0 rest)
      · exact hacc x h

theorem rustLines_no_nl {s : RStr} : ∀ l ∈ rustLines s, '\n' ∉ l := by
  unfold rustLines
  by_cases hs : s = []
  · rw [if_pos hs]
    intro l hl
    simp at hl
  · rw [if_neg hs]
    exact rustLinesGo_no_nl s [] (by simp)

theorem rustLines_chars {s : RStr} (P : Char → Prop) (hs : ∀ c ∈ s, P c) :
    ∀ l ∈ rustLines s, ∀ c ∈ l, P c := by
  unfold rustLines
  by_cases hse : s = []
  · rw [if_pos hse]
    intro l hl
    simp at hl
  · rw [if_neg hse]
    exact rustLinesGo_chars P s [] hs (by simp)

/-! File-level assembly lemmas. -/

theorem parse_lines_spec : ∀ (ls : List RStr),
    (∀ l ∈ ls, (∀ c ∈ l, asciiChar c = true) ∧ '\n' ∉ l) →
    ∃ Ls, ls.mapM parse_line = some Ls ∧
      Ls.map Line.display = ls.map (fun l => trimEndNLCR l ++ ['\n']) ∧
      (ls.map trimEndNLCR).mapM parse_line = some Ls := by
  intro ls
  induction ls with
  | nil => exact fun _ => ⟨[], rfl, rfl, rfl⟩
  | cons l ls ih =>
    intro h
    obtain ⟨hA, hn⟩ := h l (List.mem_cons_self l ls)
    obtain ⟨L, hL, hLd⟩ := parse_line_display hA hn
    obtain ⟨Ls, hLs, hLsd, hLs2⟩ := ih (fun x hx => h x (List.mem_cons_of_mem l hx))
    refine ⟨L :: Ls, ?_, ?_, ?_⟩
    · rw [List.mapM_cons]
      simp only [hL, hLs]
      rfl
    · rw [List.map_cons, List.map_cons, hLd, hLsd]
    · rw [List.map_cons, List.mapM_cons]
      simp only [parse_line_strip, hL, hLs2]
      rfl

theorem asciiStr_iff {l : RStr} : asciiStr l = true ↔ ∀ c ∈ l, asciiChar c = true :=
  List.all_eq_true

theorem take_length_takeWhile (p : Char → Bool) (l : RStr) :
    l.take (l.takeWhile p).length = l.takeWhile p := by
  induction l with
  | nil => rfl
  | cons a l ih =>
    rw [List.takeWhile_cons]
    by_cases hp : p a = true
    · rw [if_pos hp, List.length_cons, List.take_succ_cons, ih]
    · rw [if_neg hp]
      rfl

theorem specSepValid_iff {sep : RStr} : specSepValid sep = true ↔
    (sep ≠ [] ∧ (rustTrim sep = [] ∨ rustTrim sep = ['='])) := by
  unfold specSepValid
  rw [Bool.and_eq_true, Bool.or_eq_true, Bool.not_eq_true']
  constructor
  · intro ⟨h1, h2⟩
    refine ⟨?_, ?_⟩
    · intro he
      rw [he] at h1
      cases h1
    · rcases h2 with h2 | h2
      · exact Or.inl (List.isEmpty_iff.mp h2)
      · exact Or.inr (beq_iff_eq.mp h2)
  · intro ⟨h1, h2⟩
    refine ⟨?_, ?_⟩
    · cases hse : sep.isEmpty
      · rfl
      · exact absurd (List.isEmpty_iff.mp hse) h1
    · rcases h2 with h2 | h2
      · exact Or.inl (List.isEmpty_iff.mpr h2)
      · exact Or.inr (beq_iff_eq.mpr h2)

theorem parse_expression_panic {m kw sep : RStr}
    (hm : m ≠ []) (hh : ¬ m.head? = some '#')
    (hkw : m.takeWhile isAlphabetic = kw) (hkwne : kw ≠ [])
    (hsep : (m.drop (utf8Len kw)).takeWhile (fun c => isWS c || c = '=') = sep)
    (hvalid : sep ≠ [] ∧ (rustTrim sep = [] ∨ rustTrim sep = ['=']))
    (hbd : byteDrop m (utf8Len kw + utf8Len sep) = none) :
    parse_expression m = none := by
  subst hkw
  subst hsep
  simp only [parse_expression]
  rw [if_neg hm, if_neg hh, if_neg hkwne, if_pos hvalid, hbd]

/-! Claim theorems. -/

/-- Claim C2 (code defect): totality fails.  `parse_line` computes
`indent_suffix_len` as a CHARACTER count but slices `content` at BYTE index
`content.len() - indent_suffix_len`.  For the content `"a\u{00A0}"` (letter
`a` followed by a no-break space, whose Unicode `White_Space` property makes
it a whitespace character of two UTF-8 bytes) the index is 3 - 1 = 2, which
falls inside the encoding of U+00A0, so the Rust code panics on a
non-boundary slice; in the model the panic is `none`.  This contradicts the
claim that `parse_ssh_config` returns a `File` for every input. -/
theorem C2_panic_on_nbsp : parse_ssh_config ['a', ' '] none = none := by decide

/-- Claim C5: the argument tokenizer returns `none` exactly when the input
contains a quoted token whose closing unescaped quote is never found, or some
maximal unquoted non-whitespace run contains a hash, or the input is empty
(equivalently, the resulting token sequence would be empty). -/
theorem C5_tokenizer_failure_iff (s : RStr) :
    parse_arguments_expression s = none ↔
      (hasUntermQuote s = true ∨ hasHashRun s = true ∨ s = []) := by
  rw [parse_args_none_iff s]
  tauto

/-- Claim C8 (code defect): the alternation invariant fails.  Two quoted
tokens may be adjacent with no separating `Whitespace` token: parsing the
line `Host "a""b"` yields the arguments sequence
`[Quoted "a", Quoted "b"]`, two consecutive value tokens, contradicting the
claimed grammar `arguments := token (ws token)*` and the data-model
documentation in `src/file/path.rs`. -/
theorem C8_adjacent_value_tokens :
    parse_ssh_config
        ['H', 'o', 's', 't', ' ', '"', 'a', '"', '"', 'b', '"', '\n'] none =
      some ⟨[⟨[], .ConfigurationOptions ['H', 'o', 's', 't'] [' ']
        [.Quoted ['a'], .Quoted ['b']], []⟩], none⟩ := by decide

/-- Claim C9: every `ConfigurationOptions` expression produced by parsing
carries a non-empty arguments sequence whose first token is `Pure` or
`Quoted`, never `Whitespace`. -/
theorem C9_arguments_first_value (s kw sep : RStr) (args : List ArgumentToken)
    (h : parse_expression s = some (.ConfigurationOptions kw sep args)) :
    ∃ tok ts, args = tok :: ts ∧
      ((∃ v, tok = ArgumentToken.Pure v) ∨ (∃ v, tok = ArgumentToken.Quoted v)) := by
  by_cases hm : s = []
  · subst hm
    rw [parse_expression_empty] at h
    injection h with h2
    exact Expression.noConfusion h2
  · by_cases hh : s.head? = some '#'
    · rw [parse_expression_comment hm hh] at h
      injection h with h2
      exact Expression.noConfusion h2
    · by_cases hkw : s.takeWhile isAlphabetic = []
      · rw [parse_expression_nokw hm hh hkw] at h
        injection h with h2
        exact Expression.noConfusion h2
      · by_cases hv : (s.drop (utf8Len (s.takeWhile isAlphabetic))).takeWhile
            (fun c => isWS c || c = '=') ≠ [] ∧
            (rustTrim ((s.drop (utf8Len (s.takeWhile isAlphabetic))).takeWhile
              (fun c => isWS c || c = '=')) = [] ∨
             rustTrim ((s.drop (utf8Len (s.takeWhile isAlphabetic))).takeWhile
              (fun c => isWS c || c = '=')) = ['='])
        · cases hbd : byteDrop s (utf8Len (s.takeWhile isAlphabetic) +
              utf8Len ((s.drop (utf8Len (s.takeWhile isAlphabetic))).takeWhile
                (fun c => isWS c || c = '='))) with
          | none =>
            rw [parse_expression_panic hm hh rfl hkw rfl hv hbd] at h
            cases h
          | some r1 =>
            rw [parse_expression_valid hm hh rfl hkw rfl hv hbd] at h
            cases hargs : parse_arguments_expression (rustTrim r1) with
            | none =>
              rw [hargs] at h
              injection h with h2
              exact Expression.noConfusion h2
            | some args2 =>
              rw [hargs] at h
              injection h with h2
              injection h2 with hkweq hsepeq hargseq
              obtain ⟨tok, ts, hsplit, hval⟩ := parse_args_first hargs
                (fun c hc => rustTrim_head_not_ws r1 c hc)
              exact ⟨tok, ts, hargseq ▸ hsplit, hval⟩
        · rw [parse_expression_badsep hm hh rfl hkw rfl hv] at h
          injection h with h2
          exact Expression.noConfusion h2

/-- Witness for C9 at the concrete entry `Host x`. -/
theorem C9_arguments_first_value_witness :
    ∃ tok ts, [ArgumentToken.Pure ['x']] = tok :: ts ∧
      ((∃ v, tok = ArgumentToken.Pure v) ∨ (∃ v, tok = ArgumentToken.Quoted v)) :=
  C9_arguments_first_value ['H', 'o', 's', 't', ' ', 'x'] ['H', 'o', 's', 't'] [' ']
    [ArgumentToken.Pure ['x']] (by decide)

/-- Claim C10: every `Quoted q` token the tokenizer emits is well formed —
every double quote inside `q` is immediately preceded by a backslash, `q`
does not end with a backslash — and re-tokenizing its serialization
`'"' ++ q ++ '"'` yields exactly `[Quoted q]` again. -/
theorem C10_quoted_wellformed (s q : RStr) (args : List ArgumentToken)
    (h : parse_arguments_expression s = some args)
    (hq : ArgumentToken.Quoted q ∈ args) :
    (∀ u v, q = u ++ '"' :: v → u.getLast? = some '\\') ∧
    q.getLast? ≠ some '\\' ∧
    parse_arguments_expression ('"' :: q ++ ['"']) = some [ArgumentToken.Quoted q] := by
  have hwf := parse_args_quoted h hq
  refine ⟨?_, ?_, parse_args_retokenize hwf⟩
  · intro u v hquv
    have hsplit := quotedWF_split hwf u v hquv
    by_cases hu : u = []
    · exact absurd (hsplit.1 hu) (by decide)
    · exact hsplit.2 hu
  · intro hlast
    exact (quotedWF_last hwf).2 '\\' hlast rfl

/-- Witness for C10 at the concrete argument text `"a\" b"`. -/
theorem C10_quoted_wellformed_witness :
    (∀ u v, ['a', '\\', '"', ' ', 'b'] = u ++ '"' :: v → u.getLast? = some '\\') ∧
    (['a', '\\', '"', ' ', 'b'] : RStr).getLast? ≠ some '\\' ∧
    parse_arguments_expression ('"' :: ['a', '\\', '"', ' ', 'b'] ++ ['"']) =
      some [ArgumentToken.Quoted ['a', '\\', '"', ' ', 'b']] :=
  C10_quoted_wellformed ['"', 'a', '\\', '"', ' ', 'b', '"'] ['a', '\\', '"', ' ', 'b']
    [ArgumentToken.Quoted ['a', '\\', '"', ' ', 'b']] (by decide) (by decide)

/-- Counterexample to claim C1 as stated: the one-line text `é= x\n`
(terminated by a newline, no carriage return) does not round-trip:
`keyword.len()` is the byte length 2 of `é`, `chars().skip(2)` therefore
skips past the `=` sign, the stored separator is `" "` instead of `"= "`,
and serialization yields `é x\n`. -/
theorem C1_counterexample :
    (parse_ssh_config ['é', '=', ' ', 'x', '\n'] none).map File.display ≠
      some ['é', '=', ' ', 'x', '\n'] ∧
    (parse_ssh_config ['é', '=', ' ', 'x', '\n'] none).map File.display =
      some ['é', ' ', 'x', '\n'] := by decide

/-- Counterexample to claim C3 as stated: for `T = "é= x\n"`,
`parse(serialize(parse(T)))` classifies the reserialized line `é x` as
`Malformed` (the separator was mangled on the first parse, see C1), while
`parse(T)` produced a `ConfigurationOptions` line, so the two parses
differ. -/
theorem C3_counterexample :
    (parse_ssh_config ['é', '=', ' ', 'x', '\n'] none).bind
        (fun f => parse_ssh_config (File.display f) none) ≠
      parse_ssh_config ['é', '=', ' ', 'x', '\n'] none := by decide

/-- Counterexample to claim C4 as stated: on the trimmed content `é= x` the
returned separator `" "` is not the maximal whitespace-or-equals run `"= "`
that follows the keyword `é`, because the code skips `keyword.len()` BYTES
worth of characters. -/
theorem C4_counterexample :
    parse_expression ['é', '=', ' ', 'x'] =
      some (.ConfigurationOptions ['é'] [' '] [.Pure ['x']]) ∧
    specSeparator ['é', '=', ' ', 'x'] = ['=', ' '] ∧
    ([' '] : RStr) ≠ ['=', ' '] := by decide

/-- Counterexample to claim C6 as stated: the text `a\r\r\n` consists of one
line ended by the terminator `\r\n`, but its serialization after parsing is
`a\n`, not the `\r\n`-to-`\n` normalization `a\r\n`: `str::lines` strips the
`\r` of the terminator and `trim_end_matches(['\n','\r'])` then eats the
remaining `\r` belonging to the line content. -/
theorem C6_counterexample :
    (parse_ssh_config ['a', '\r', '\r', '\n'] none).map File.display =
      some ['a', '\n'] ∧
    (some ['a', '\n'] : Option RStr) ≠ some ['a', '\r', '\n'] := by decide

/-- Counterexample to claim C7 as stated: for the line `a` followed by two
no-break spaces (U+00A0, two UTF-8 bytes each), the maximal trailing
whitespace run of the remainder has two characters, but the byte/char mixup
in the suffix slice makes `parse_line` store only one of them. -/
theorem C7_counterexample :
    parse_line ['a', ' ', ' '] =
      some ⟨[], .Malformed ['a'], [' ']⟩ ∧
    specIndentSuf ['a', ' ', ' '] = [' ', ' '] ∧
    ([' '] : RStr) ≠ [' ', ' '] := by decide

/-- Claim C1 as amended: restricted to ASCII text, the round-trip law holds —
for every sequence of lines of ASCII characters containing no `'\n'` and no
`'\r'`, parsing their `'\n'`-terminated concatenation and serializing the
resulting `File` reproduces the text byte for byte.  (The ASCII restriction
is forced by `C1_counterexample`.) -/
theorem C1_roundtrip_ascii (ls : List RStr) (path : Option RStr)
    (h : ∀ l ∈ ls, asciiStr l = true ∧ '\n' ∉ l ∧ '\r' ∉ l) :
    (parse_ssh_config (linesText ls) path).map File.display = some (linesText ls) := by
  have h1 : ∀ l ∈ ls, (∀ c ∈ l, asciiChar c = true) ∧ '\n' ∉ l := fun l hl =>
    ⟨asciiStr_iff.mp (h l hl).1, (h l hl).2.1⟩
  obtain ⟨Ls, hLs, hLsd, _⟩ := parse_lines_spec ls h1
  have hlines : rustLines (linesText ls) = ls := by
    rw [rustLines_linesText ls (fun l hl => (h1 l hl).2)]
    refine (List.map_congr_left ?_).trans (List.map_id ls)
    intro a ha
    exact stripOneCR_of_no_cr (h a ha).2.2
  unfold parse_ssh_config
  rw [hlines, hLs]
  show some ((Ls.map Line.display).flatten) = some (linesText ls)
  rw [hLsd]
  unfold linesText
  refine congrArg (fun x => some (List.flatten x)) ?_
  refine List.map_congr_left ?_
  intro a ha
  rw [trimEndNLCR_eq_self (h a ha).2.1 (h a ha).2.2]

/-- Witness for the amended C1 at the one-line text `Host x\n`. -/
theorem C1_roundtrip_ascii_witness :
    (parse_ssh_config (linesText [['H', 'o', 's', 't', ' ', 'x']]) none).map File.display =
      some (linesText [['H', 'o', 's', 't', ' ', 'x']]) :=
  C1_roundtrip_ascii [['H', 'o', 's', 't', ' ', 'x']] none (by decide)

/-- Claim C6 as amended: for every sequence of lines of ASCII characters
containing no `'\n'` and no `'\r'`, parsing their `'\r\n'`-terminated
concatenation and serializing reproduces the `'\n'`-normalized text, i.e.
the text with every `'\r\n'` replaced by `'\n'`.  (Excluding `'\r'` from the
line content is forced by `C6_counterexample`, and the ASCII restriction by
the byte/char defects shown in `C1_counterexample`.) -/
theorem C6_crlf_normalization_ascii (ls : List RStr) (path : Option RStr)
    (h : ∀ l ∈ ls, asciiStr l = true ∧ '\n' ∉ l ∧ '\r' ∉ l) :
    (parse_ssh_config (crlfText ls) path).map File.display = some (linesText ls) := by
  have h1 : ∀ l ∈ ls, (∀ c ∈ l, asciiChar c = true) ∧ '\n' ∉ l := fun l hl =>
    ⟨asciiStr_iff.mp (h l hl).1, (h l hl).2.1⟩
  have hcrlf : crlfText ls = linesText (ls.map (fun l => l ++ ['\r'])) := by
    unfold crlfText linesText
    rw [List.map_map]
    refine congrArg List.flatten ?_
    refine List.map_congr_left ?_
    intro a _
    show a ++ ['\r', '\n'] = (a ++ ['\r']) ++ ['\n']
    rw [List.append_assoc]
    rfl
  have hlines : rustLines (crlfText ls) = ls := by
    rw [hcrlf, rustLines_linesText]
    · rw [List.map_map]
      refine (List.map_congr_left ?_).trans (List.map_id ls)
      intro a _
      exact stripOneCR_concat_cr a
    · intro l2 hl2
      rw [List.mem_map] at hl2
      obtain ⟨l0, hl0, rfl⟩ := hl2
      intro hc
      rcases List.mem_append.mp hc with hc | hc
      · exact (h l0 hl0).2.1 hc
      · simp at hc
  obtain ⟨Ls, hLs, hLsd, _⟩ := parse_lines_spec ls h1
  unfold parse_ssh_config
  rw [hlines, hLs]
  show some ((Ls.map Line.display).flatten) = some (linesText ls)
  rw [hLsd]
  unfold linesText
  refine congrArg (fun x => some (List.flatten x)) ?_
  refine List.map_congr_left ?_
  intro a ha
  rw [trimEndNLCR_eq_self (h a ha).2.1 (h a ha).2.2]

/-- Witness for the amended C6 at the one-line text `Host x\r\n`. -/
theorem C6_crlf_normalization_ascii_witness :
    (parse_ssh_config (crlfText [['H', 'o', 's', 't', ' ', 'x']]) none).map File.display =
      some (linesText [['H', 'o', 's', 't', ' ', 'x']]) :=
  C6_crlf_normalization_ascii [['H', 'o', 's', 't', ' ', 'x']] none (by decide)

/-- Claim C3 as amended: for every ASCII text `T` (otherwise arbitrary: lines
may lack terminators or use `'\r'`), parsing is total, and re-parsing the
serialized form of the parsed file with the same optional source path yields
the same `File` value: `parse(serialize(parse(T))) = parse(T)`.  (The ASCII
restriction is forced by `C3_counterexample`.) -/
theorem C3_idempotent_ascii (T : RStr) (path : Option RStr) (hA : asciiStr T = true) :
    ∃ f, parse_ssh_config T path = some f ∧
      parse_ssh_config (File.display f) path = some f := by
  have hTA : ∀ c ∈ T, asciiChar c = true := asciiStr_iff.mp hA
  have hlsA : ∀ l ∈ rustLines T, (∀ c ∈ l, asciiChar c = true) ∧ '\n' ∉ l := by
    intro l hl
    exact ⟨fun c hc => rustLines_chars (fun c => asciiChar c = true) hTA l hl c hc,
      rustLines_no_nl l hl⟩
  obtain ⟨Ls, hLs, hLsd, hLs2⟩ := parse_lines_spec (rustLines T) hlsA
  refine ⟨⟨Ls, path⟩, ?_, ?_⟩
  · unfold parse_ssh_config
    rw [hLs]
    rfl
  · have hdisp : File.display ⟨Ls, path⟩ =
        linesText ((rustLines T).map trimEndNLCR) := by
      show (Ls.map Line.display).flatten = _
      rw [hLsd]
      unfold linesText
      rw [List.map_map]
      rfl
    rw [hdisp]
    unfold parse_ssh_config
    have hlines2 : rustLines (linesText ((rustLines T).map trimEndNLCR)) =
        ((rustLines T).map trimEndNLCR).map stripOneCR := by
      refine rustLines_linesText _ ?_
      intro l2 hl2
      rw [List.mem_map] at hl2
      obtain ⟨l0, hl0, rfl⟩ := hl2
      intro hc
      exact rustLines_no_nl l0 hl0 (trimEndNLCR_mem hc)
    rw [hlines2]
    have hstrip : ((rustLines T).map trimEndNLCR).map stripOneCR =
        (rustLines T).map trimEndNLCR := by
      refine (List.map_congr_left ?_).trans (List.map_id _)
      intro a ha
      rw [List.mem_map] at ha
      obtain ⟨l0, _, rfl⟩ := ha
      refine stripOneCR_of_getLast_ne ?_
      intro c hc hcr
      subst hcr
      have hnl := trimEndNLCR_getLast l0 '\r' hc
      exact absurd hnl (by decide)
    rw [hstrip, hLs2]
    rfl

/-- Witness for the amended C3 at the text `Hi y\r\n` (carriage return kept in
the text to exercise normalization during idempotence). -/
theorem C3_idempotent_ascii_witness :
    ∃ f, parse_ssh_config ['H', 'i', ' ', 'y', '\r', '\n'] none = some f ∧
      parse_ssh_config (File.display f) none = some f :=
  C3_idempotent_ascii ['H', 'i', ' ', 'y', '\r', '\n'] none (by decide)

/-- Claim C7 as amended: for every ASCII physical line (no `'\n'`, terminator
already stripped), `parse_line` succeeds, stores as `indent_prefix` the
maximal leading whitespace run, stores as `indent_suffix` the maximal
trailing whitespace run of the remainder, the two runs do not overlap (the
line splits as prefix ++ middle ++ suffix), and an all-whitespace line
assigns everything to the prefix, leaving the suffix empty with expression
`Empty`.  (The ASCII restriction is forced by `C7_counterexample`.) -/
theorem C7_indent_extraction_ascii (l : RStr) (hA : asciiStr l = true)
    (hn : '\n' ∉ l) (hs : trimEndNLCR l = l) :
    ∃ L, parse_line l = some L ∧
      L.indent_prefix = specIndentPre l ∧
      L.indent_suffix = specIndentSuf l ∧
      (∃ mid, l = L.indent_prefix ++ mid ++ L.indent_suffix) ∧
      ((∀ c ∈ l, isWS c = true) →
        L.indent_prefix = l ∧ L.indent_suffix = [] ∧ L.expression = Expression.Empty) := by
  obtain ⟨e, he, _, hl⟩ := parse_line_eq (asciiStr_iff.mp hA) hn hs
  refine ⟨⟨l.takeWhile isWS, e, ((l.dropWhile isWS).reverse.takeWhile isWS).reverse⟩,
    hl, rfl, ?_, ?_, ?_⟩
  · show ((l.dropWhile isWS).reverse.takeWhile isWS).reverse = specIndentSuf l
    unfold specIndentSuf specIndentPre
    rw [drop_length_takeWhile]
  · exact ⟨rustTrim l, by conv_lhs => rw [trim_decomp l]⟩
  · intro hws
    refine ⟨takeWhile_all hws, ?_, ?_⟩
    · show ((l.dropWhile isWS).reverse.takeWhile isWS).reverse = []
      rw [dropWhile_all hws]
      rfl
    · have htr : rustTrim l = [] := by
        unfold rustTrim rustTrimStart
        rw [dropWhile_all hws]
        rfl
      rw [htr, parse_expression_empty] at he
      injection he with he2
      exact he2.symm

/-- Witness for the amended C7 at the line consisting of a space, the letter
`a`, and a space. -/
theorem C7_indent_extraction_ascii_witness :
    ∃ L, parse_line [' ', 'a', ' '] = some L ∧
      L.indent_prefix = specIndentPre [' ', 'a', ' '] ∧
      L.indent_suffix = specIndentSuf [' ', 'a', ' '] ∧
      (∃ mid, [' ', 'a', ' '] = L.indent_prefix ++ mid ++ L.indent_suffix) ∧
      ((∀ c ∈ ([' ', 'a', ' '] : RStr), isWS c = true) →
        L.indent_prefix = [' ', 'a', ' '] ∧ L.indent_suffix = [] ∧
          L.expression = Expression.Empty) :=
  C7_indent_extraction_ascii [' ', 'a', ' '] (by decide) (by decide) (by decide)

/-- Claim C4 as amended: restricted to ASCII content, classification is exact
and atomic.  For every non-empty trimmed ASCII string that does not start
with `#`, `parse_expression` returns `ConfigurationOptions` with exactly the
maximal alphabetic prefix as keyword and the maximal whitespace-or-equals
run following it as separator when the keyword is non-empty, the separator
is valid, and the tokenizer accepts the trimmed remainder; in every other
case it returns `Malformed` carrying the full original string.  (The ASCII
restriction is forced by `C4_counterexample`.) -/
theorem C4_classification_ascii (s : RStr) (hA : asciiStr s = true)
    (_ht : rustTrim s = s) (h0 : s ≠ []) (hh : ¬ s.head? = some '#') :
    parse_expression s =
      some (match parse_arguments_expression (specRest s) with
        | some args =>
          if specKeyword s ≠ [] ∧ specSepValid (specSeparator s) = true then
            Expression.ConfigurationOptions (specKeyword s) (specSeparator s) args
          else Expression.Malformed s
        | none => Expression.Malformed s) := by
  have hTA : ∀ c ∈ s, asciiChar c = true := asciiStr_iff.mp hA
  by_cases hkw : s.takeWhile isAlphabetic = []
  · rw [parse_expression_nokw h0 hh hkw]
    cases parse_arguments_expression (specRest s) with
    | none => rfl
    | some args =>
      show _ = some (if specKeyword s ≠ [] ∧ specSepValid (specSeparator s) = true then
        Expression.ConfigurationOptions (specKeyword s) (specSeparator s) args
        else Expression.Malformed s)
      rw [if_neg (fun hcon => hcon.1 (show specKeyword s = [] from hkw))]
  · have hkwA : ∀ c ∈ s.takeWhile isAlphabetic, asciiChar c = true := fun c hc =>
      hTA c ((List.takeWhile_sublist _).mem hc)
    have hsepeq : (s.drop (utf8Len (s.takeWhile isAlphabetic))).takeWhile
        (fun c => isWS c || c = '=') = specSeparator s := by
      unfold specSeparator specKeyword
      rw [utf8Len_ascii hkwA]
    have htk : s.take (specKeyword s).length = specKeyword s :=
      take_length_takeWhile isAlphabetic s
    have hts : (s.drop (specKeyword s).length).take (specSeparator s).length =
        specSeparator s := by
      show (s.drop (specKeyword s).length).take
          ((s.drop (specKeyword s).length).takeWhile (fun c => isWS c || c = '=')).length =
        (s.drop (specKeyword s).length).takeWhile (fun c => isWS c || c = '=')
      exact take_length_takeWhile _ _
    have hs2 : s = (specKeyword s ++ specSeparator s) ++
        s.drop ((specKeyword s).length + (specSeparator s).length) := by
      rw [List.append_assoc]
      conv_lhs => rw [← List.take_append_drop (specKeyword s).length s]
      rw [htk]
      refine congrArg (specKeyword s ++ ·) ?_
      conv_lhs => rw [← List.take_append_drop (specSeparator s).length
        (s.drop (specKeyword s).length)]
      rw [hts]
      refine congrArg (specSeparator s ++ ·) ?_
      rw [List.drop_drop]
    have hbd : byteDrop s (utf8Len (specKeyword s) + utf8Len (specSeparator s)) =
        some (s.drop ((specKeyword s).length + (specSeparator s).length)) := by
      have hb := byteDrop_exact (specKeyword s ++ specSeparator s)
        (s.drop ((specKeyword s).length + (specSeparator s).length))
      rw [← hs2, utf8Len_append] at hb
      exact hb
    by_cases hv : specSeparator s ≠ [] ∧
        (rustTrim (specSeparator s) = [] ∨ rustTrim (specSeparator s) = ['='])
    · rw [parse_expression_valid h0 hh rfl hkw hsepeq hv hbd]
      rw [show specRest s =
        rustTrim (s.drop ((specKeyword s).length + (specSeparator s).length)) from rfl]
      cases parse_arguments_expression
          (rustTrim (s.drop ((specKeyword s).length + (specSeparator s).length))) with
      | none => rfl
      | some args =>
        show _ = some (if specKeyword s ≠ [] ∧ specSepValid (specSeparator s) = true then
          Expression.ConfigurationOptions (specKeyword s) (specSeparator s) args
          else Expression.Malformed s)
        rw [if_pos (⟨show specKeyword s ≠ [] from hkw, specSepValid_iff.mpr hv⟩ :
          specKeyword s ≠ [] ∧ specSepValid (specSeparator s) = true)]
        rfl
    · rw [parse_expression_badsep h0 hh rfl hkw hsepeq hv]
      rw [show specRest s =
        rustTrim (s.drop ((specKeyword s).length + (specSeparator s).length)) from rfl]
      cases parse_arguments_expression
          (rustTrim (s.drop ((specKeyword s).length + (specSeparator s).length))) with
      | none => rfl
      | some args =>
        show _ = some (if specKeyword s ≠ [] ∧ specSepValid (specSeparator s) = true then
          Expression.ConfigurationOptions (specKeyword s) (specSeparator s) args
          else Expression.Malformed s)
        rw [if_neg (fun hcon => hv (specSepValid_iff.mp hcon.2))]

/-- Witness for the amended C4 at the trimmed content `Host x`. -/
theorem C4_classification_ascii_witness :
    parse_expression ['H', 'o', 's', 't', ' ', 'x'] =
      some (Expression.ConfigurationOptions ['H', 'o', 's', 't'] [' ']
        [ArgumentToken.Pure ['x']]) := by
  have h := C4_classification_ascii ['H', 'o', 's', 't', ' ', 'x'] (by decide) (by decide)
    (by decide) (by decide)
  rw [h]
  decide

end Sshc
